import Mathlib

/-!
Verification of the Amulet-Core chunk translation engine.

This file gives a shallow embedding of
 * `Translator._translate` and its helpers, `Translator.to_universal`,
   `Translator.from_universal`, `Translator._biomes_to_universal` and
   `Translator._biomes_from_universal`
   (from `src/amulet/api/wrapper/chunk/translator.py`), and
 * the `replace` operation (from `src/amulet/operations/replace.py`),
and proves the specification's claims about them.

Classes that the translator imports from modules outside the shown sources
(`amulet.api.block`, `amulet.api.chunk`, `amulet.api.block_entity`,
`amulet.api.entity`, the PyMCTranslate `Version` service and the global
`entity_support` flag) are modelled from the specification; each such
definition carries a doc comment saying so.
-/

set_option maxRecDepth 10000

/-- Modelled from the spec (§3 Data Model): one block layer — namespace,
base name and a property mapping.  The `Block` class lives in
`amulet.api.block`, outside the shown sources.  (`ns` stands for the
namespace field; `namespace` is a Lean keyword.) -/
structure BlockBase where
  ns : String
  base_name : String
  properties : List (String × String)
deriving DecidableEq

/-- Modelled from the spec (§3): a composite block — a base layer plus an
ordered sequence of extra layers.  Equality is structural over the full
layered sequence. -/
structure Block where
  base_block : BlockBase
  extra_blocks : List BlockBase
deriving DecidableEq

instance : Inhabited Block := ⟨⟨⟨"", "", []⟩, []⟩⟩

/-- Modelled from the spec (§4.4 step 4, merge semantics of the block value
model: "merge onto an accumulating output block", "union of namespaced
layers"): `a.add b` keeps the base layer of `a` and appends all layers of
`b` to the extra layers. -/
def Block.add (a b : Block) : Block :=
  ⟨a.base_block, a.extra_blocks ++ b.base_block :: b.extra_blocks⟩

/-- Modelled from the spec (§3): a block-entity — namespaced name (the
namespace may be absent), an integer location and an opaque payload
(modelled by an opaque tag). -/
structure BlockEntity where
  ns : Option String
  base_name : String
  x : Int
  y : Int
  z : Int
  nbt : Nat
deriving DecidableEq

/-- Modelled from the spec (§3): a copy of the block-entity placed at the
given absolute coordinates (the `new_at_location` method of
`amulet.api.block_entity`). -/
def BlockEntity.new_at_location (be : BlockEntity) (x y z : Int) : BlockEntity :=
  { be with x := x, y := y, z := z }

/-- Modelled from the spec (§3): the combined `namespace:base_name` string. -/
def BlockEntity.namespaced_name (be : BlockEntity) : String :=
  (match be.ns with | some n => n | none => "None") ++ ":" ++ be.base_name

/-- Modelled from the spec (§3): assigning a namespaced name splits it on the
first colon into namespace and base name. -/
def BlockEntity.set_namespaced_name (be : BlockEntity) (s : String) : BlockEntity :=
  match s.splitOn ":" with
  | [] => { be with ns := none, base_name := s }
  | [b] => { be with ns := none, base_name := b }
  | n :: rest => { be with ns := some n, base_name := String.intercalate ":" rest }

/-- Modelled from the spec (§3): an entity — namespaced name, an opaque
payload and a (non-integer) 3-vector location, modelled with rationals. -/
structure Entity where
  ns : String
  base_name : String
  x : Rat
  y : Rat
  z : Rat
  nbt : Nat
deriving DecidableEq

/-- The source's `e.location += (x, y, z)` with integer offsets. -/
def Entity.offset (e : Entity) (dx dy dz : Int) : Entity :=
  { e with x := e.x + (dx : Rat), y := e.y + (dy : Rat), z := e.z + (dz : Rat) }

/-- The source's `e.location = entity.location`. -/
def Entity.withLocation (e : Entity) (x y z : Rat) : Entity :=
  { e with x := x, y := y, z := z }

/-- A palette entry: either a plain block, or the bedrock form that wraps the
block in an extra tuple layer together with a version tag (the source's
`(version, Block)` tuples, see `BedrockInterfaceBlockType` in
`src/amulet/api/data_types/wrapper_types.py` and the `isinstance(block, tuple)`
check in `get_block_at`). -/
inductive PaletteEntry : Type where
  | blk (b : Block) : PaletteEntry
  | wrapped (version : Int) (b : Block) : PaletteEntry
deriving DecidableEq

instance : Inhabited PaletteEntry := ⟨PaletteEntry.blk default⟩

/-- The source's `if isinstance(block, tuple): block = block[0][1]` unwrap. -/
def unwrapEntry : PaletteEntry → Block
  | PaletteEntry.blk b => b
  | PaletteEntry.wrapped _ b => b

/-- Index of the first occurrence of `a`, if present. -/
def find_index {α : Type} [DecidableEq α] (a : α) : List α → Option Nat
  | [] => none
  | x :: l => if x = a then some 0 else (find_index a l).map (fun n => n + 1)

/-- Modelled from the spec (§4.1 Block Palette Manager): a deduplicating,
order-stable, append-only table of blocks (the `BlockManager` class of
`amulet.api.block`, outside the shown sources). -/
structure BlockManager where
  blocks : List Block
deriving DecidableEq

/-- Modelled from the spec (§4.1): `get_or_add` — look the block up by
structural equality; if present return its existing index, otherwise append
it at the next sequential index. -/
def BlockManager.get_add_block (m : BlockManager) (b : Block) : Nat × BlockManager :=
  match find_index b m.blocks with
  | some n => (n, m)
  | none => (m.blocks.length, ⟨m.blocks ++ [b]⟩)

/-- Python `dict` lookup on an association list (first matching key). -/
def assocLookup {κ ν : Type} [DecidableEq κ] : List (κ × ν) → κ → Option ν
  | [], _ => none
  | p :: l, k => if p.1 = k then some p.2 else assocLookup l k

/-- Python `dict` assignment on an association list: overwrite the value in
place if the key is present, otherwise append (insertion order preserved). -/
def assocInsert {κ ν : Type} [DecidableEq κ] (l : List (κ × ν)) (k : κ) (v : ν) :
    List (κ × ν) :=
  if (l.map (fun p => p.1)).contains k then
    l.map (fun p => if p.1 = k then (k, v) else p)
  else l ++ [(k, v)]

/-- A vertical section's cells: local `(x, y, z)` position (each in `[0,16)`)
paired with the palette index stored there. -/
abbrev SubCells := List ((Int × Int × Int) × Nat)

/-- Modelled from the spec (§3): the vertically-segmented 3D array of palette
indices, keyed by vertical section id `cy` (the `Blocks` container of
`amulet.api.chunk`, outside the shown sources).  A numpy section array is
modelled as a finite list of position/value cells in iteration (C) order. -/
structure Blocks where
  subs : List (Int × SubCells)
deriving DecidableEq

/-- `chunk.blocks[x, y, z]` with `x`, `z` chunk-local and `y` absolute: the
section is `y // 16` and the in-section coordinates are `(x, y % 16, z)`.
Python's floor division and modulus by the positive constant 16 agree with
`Int` `/` and `%` here. -/
def Blocks.getBlock (bs : Blocks) (x y z : Int) : Nat :=
  match assocLookup bs.subs (y / 16) with
  | none => 0
  | some cells =>
    match assocLookup cells (x, y % 16, z) with
    | none => 0
    | some v => v

/-- `chunk.blocks[x, y, z] = v` (same indexing convention as `getBlock`). -/
def Blocks.setBlock (bs : Blocks) (x y z : Int) (v : Nat) : Blocks :=
  ⟨bs.subs.map (fun s =>
    if s.1 = y / 16 then
      (s.1, s.2.map (fun c => if c.1 = (x, y % 16, z) then (c.1, v) else c))
    else s)⟩

/-- The source's `zip(*numpy.where(section == i))`: the local positions of the
cells of one section holding palette index `i`, in iteration order. -/
def subWhere (cells : SubCells) (i : Nat) : List (Int × Int × Int) :=
  (cells.filter (fun c => c.2 == i)).map (fun c => c.1)

/-- All occurrences of palette index `i` in the chunk: the source's
`for cy in chunk.blocks.sub_chunks: for x, y, z in zip(*numpy.where(...))`,
as a list of `(cy, local position)` pairs. -/
def occurrences (bs : Blocks) (i : Nat) : List (Int × (Int × Int × Int)) :=
  bs.subs.flatMap (fun s => (subWhere s.2 i).map (fun p => (s.1, p)))

/-- Well-formedness of a block container: distinct section keys, distinct cell
positions inside each section, and local coordinates in `[0, 16)`. -/
def Blocks.WF (bs : Blocks) : Prop :=
  (bs.subs.map (fun s => s.1)).Nodup ∧
  ∀ s ∈ bs.subs, (s.2.map (fun c => c.1)).Nodup ∧
    ∀ c ∈ s.2, 0 ≤ c.1.1 ∧ c.1.1 < 16 ∧ 0 ≤ c.1.2.1 ∧ c.1.2.1 < 16 ∧
      0 ≤ c.1.2.2 ∧ c.1.2.2 < 16

/-- Modelled from the spec (§3): a chunk — grid coordinates, the sectioned
block array, the block-entities (a mapping keyed by each block-entity's own
absolute position), the entities, and the biome array (the `Chunk` class of
`amulet.api.chunk`, outside the shown sources). -/
structure Chunk where
  cx : Int
  cz : Int
  blocks : Blocks
  block_entities : List BlockEntity
  entities : List Entity
  biomes : List Int
deriving DecidableEq

/-- `chunk.block_entities.get((x, y, z))`: the block-entity stored at an
absolute position. -/
def findBlockEntity (l : List BlockEntity) (x y z : Int) : Option BlockEntity :=
  l.find? (fun be => decide (be.x = x ∧ be.y = y ∧ be.z = z))

/-- The `GetBlockCallback` type of `wrapper_types.py`: relative coordinates in,
block (and optional block-entity) out. -/
abbrev GetBlockCallback := (Int × Int × Int) → Block × Option BlockEntity

/-- The `GetChunkCallback` type of `wrapper_types.py`. -/
abbrev GetChunkCallback := Int → Int → Chunk × List PaletteEntry

/-- The `TranslateBlockCallbackReturn` type of `wrapper_types.py`:
`(Optional[Block], Optional[BlockEntity], List[Entity], bool)`. -/
abbrev TranslateBlockResult := Option Block × Option BlockEntity × List Entity × Bool

/-- The `TranslateBlockCallback` type of `wrapper_types.py`. -/
abbrev TranslateBlockCallback := PaletteEntry → Option GetBlockCallback → TranslateBlockResult

/-- The `TranslateEntityCallbackReturn` type of `wrapper_types.py`. -/
abbrev TranslateEntityResult := Option Block × Option BlockEntity × List Entity

/-- The `TranslateEntityCallback` type of `wrapper_types.py`. -/
abbrev TranslateEntityCallback := Entity → TranslateEntityResult

/-- A value recorded in `block_mappings`: Phase 2 records palette indices
(`Sum.inl`, via `finished.get_add_block`), while the entity pass of the
source stores the raw output `Block` itself (`Sum.inr`, line 175 of
`translator.py`). -/
abbrev BMVal := Nat ⊕ Block

/-- The mutable state accumulated by `Translator._translate`: the deferred
palette indices, the two output object lists, the output palette manager
(`finished`), the palette-wide index mapping and the per-position mapping. -/
structure TState where
  todo : List Nat
  output_block_entities : List BlockEntity
  output_entities : List Entity
  finished : BlockManager
  palette_mappings : List (Nat × Nat)
  block_mappings : List ((Int × Int × Int) × BMVal)
deriving DecidableEq

/-- The state at the top of `Translator._translate`. -/
def initState : TState := ⟨[], [], [], ⟨[]⟩, [], []⟩

/-- One iteration of the Phase-1 loop of `Translator._translate`
(`for i, input_block in enumerate(palette)`). -/
def phase1Step (entity_support : Bool) (chunk : Chunk) (gcc_present : Bool)
    (translate_block : TranslateBlockCallback) (st : TState)
    (ie : Nat × PaletteEntry) : TState :=
  let i := ie.1
  let r := translate_block ie.2 none
  let output_block := r.1
  let output_block_entity := r.2.1
  let output_entity := r.2.2.1
  let extra := r.2.2.2
  let st1 :=
    if extra && gcc_present then { st with todo := st.todo ++ [i] }
    else
      match output_block with
      | some ob =>
        let p := st.finished.get_add_block ob
        let st' := { st with
          finished := p.2,
          palette_mappings := assocInsert st.palette_mappings i p.1 }
        match output_block_entity with
        | some obe =>
          { st' with output_block_entities := st'.output_block_entities ++
              (occurrences chunk.blocks i).map (fun o =>
                obe.new_at_location (o.2.1 + chunk.cx * 16) (o.2.2.1 + o.1 * 16)
                  (o.2.2.2 + chunk.cz * 16)) }
        | none => st'
      | none => st   -- the source's `# TODO: set the block to air` branch: no mapping recorded
  if !output_entity.isEmpty && entity_support then
    { st1 with output_entities := st1.output_entities ++
        (occurrences chunk.blocks i).flatMap (fun o =>
          output_entity.map (fun e =>
            e.offset (o.2.1 + chunk.cx * 16) (o.2.2.1 + o.1 * 16)
              (o.2.2.2 + chunk.cz * 16))) }
  else st1

/-- The Phase-1 loop with the running `enumerate` counter made explicit. -/
def phase1Go (entity_support : Bool) (chunk : Chunk) (gcc_present : Bool)
    (translate_block : TranslateBlockCallback) :
    Nat → List PaletteEntry → TState → TState
  | _, [], st => st
  | i, e :: l, st =>
    phase1Go entity_support chunk gcc_present translate_block (i + 1) l
      (phase1Step entity_support chunk gcc_present translate_block st (i, e))

/-- Phase 1 of `Translator._translate`: context-free translation of every
palette entry. -/
def phase1 (entity_support : Bool) (chunk : Chunk) (gcc_present : Bool)
    (translate_block : TranslateBlockCallback) (palette : List PaletteEntry) : TState :=
  phase1Go entity_support chunk gcc_present translate_block 0 palette initState

/-- The source's `get_block_at` closure: resolve a position relative to the
block currently being translated, either inside the current chunk or through
the chunk-loader callback, unwrapping tuple-wrapped palette entries. -/
def get_block_at (get_chunk_callback : GetChunkCallback) (chunk : Chunk)
    (palette : List PaletteEntry) (x y z : Int) (pos : Int × Int × Int) :
    Block × Option BlockEntity :=
  let dx := pos.1 + x
  let dy := pos.2.1 + y
  let dz := pos.2.2 + z
  let abs_x := dx + chunk.cx * 16
  let abs_y := dy
  let abs_z := dz + chunk.cz * 16
  let cx := dx / 16
  let cz := dz / 16
  if cx = 0 ∧ cz = 0 then
    let block := unwrapEntry (palette.getD (chunk.blocks.getBlock dx dy dz) default)
    (block, findBlockEntity chunk.block_entities abs_x abs_y abs_z)
  else
    let lc := get_chunk_callback cx cz
    let block := unwrapEntry (lc.2.getD (lc.1.blocks.getBlock (dx % 16) dy (dz % 16)) default)
    (block, findBlockEntity lc.1.block_entities abs_x abs_y abs_z)

/-- One iteration of the Phase-2 inner loop of `Translator._translate`: one
deferred occurrence at section `occ.1`, local position `occ.2`. -/
def phase2PosStep (entity_support : Bool) (chunk : Chunk) (palette : List PaletteEntry)
    (gcc : GetChunkCallback) (translate_block : TranslateBlockCallback)
    (st : TState) (occ : Int × (Int × Int × Int)) : TState :=
  let cy := occ.1
  let x := occ.2.1
  let y := occ.2.2.1 + cy * 16
  let z := occ.2.2.2
  let input_block := palette.getD (chunk.blocks.getBlock x y z) default
  let r := translate_block input_block (some (get_block_at gcc chunk palette x y z))
  let st1 :=
    match r.1 with
    | some output_block =>
      let p := st.finished.get_add_block output_block
      let st' := { st with
        finished := p.2,
        block_mappings := assocInsert st.block_mappings (x, y, z) (Sum.inl p.1) }
      match r.2.1 with
      | some obe =>
        { st' with output_block_entities := st'.output_block_entities ++
            [obe.new_at_location (x + chunk.cx * 16) y (z + chunk.cz * 16)] }
      | none => st'
    | none => st   -- the source's second `# TODO: set the block to air` branch
  if !r.2.2.1.isEmpty && entity_support then
    { st1 with output_entities := st1.output_entities ++
        r.2.2.1.map (fun e => e.offset x y z) }
  else st1

/-- Phase 2 of `Translator._translate`: for every deferred palette index,
re-translate once per occurrence with a resolver bound to that position. -/
def phase2 (entity_support : Bool) (chunk : Chunk) (palette : List PaletteEntry)
    (gcc : GetChunkCallback) (translate_block : TranslateBlockCallback)
    (st : TState) : TState :=
  st.todo.foldl
    (fun st' index =>
      (occurrences chunk.blocks index).foldl
        (phase2PosStep entity_support chunk palette gcc translate_block) st')
    st

/-- One iteration of the entity pass of `Translator._translate`.  Note that
line 175 of the source stores the raw `output_block` in `block_mappings`
(`Sum.inr`), not a palette-manager index. -/
def entityPassStep (translate_entity : TranslateEntityCallback) (st : TState)
    (entity : Entity) : TState :=
  let r := translate_entity entity
  let st1 :=
    match r.1 with
    | some output_block =>
      let bl : Int × Int × Int := (Rat.floor entity.x, Rat.floor entity.y, Rat.floor entity.z)
      let st' := { st with block_mappings := assocInsert st.block_mappings bl (Sum.inr output_block) }
      match r.2.1 with
      | some obe =>
        { st' with output_block_entities := st'.output_block_entities ++
            [obe.new_at_location bl.1 bl.2.1 bl.2.2] }
      | none => st'
    | none => st
  if !r.2.2.isEmpty then
    { st1 with output_entities := st1.output_entities ++
        r.2.2.map (fun e => e.withLocation entity.x entity.y entity.z) }
  else st1

/-- The entity pass of `Translator._translate` (gated by `entity_support` at
the call site). -/
def entityPass (translate_entity : TranslateEntityCallback) (chunk : Chunk)
    (st : TState) : TState :=
  chunk.entities.foldl (entityPassStep translate_entity) st

/-- The commit loop body for one section: `new_blocks = numpy.zeros(...)`
followed by `new_blocks[old_blocks == old] = new` for each palette-wide
mapping, the mask taken against the original cells. -/
def commitSub (palette_mappings : List (Nat × Nat)) (cells : SubCells) : SubCells :=
  palette_mappings.foldl
    (fun new_cells om =>
      List.zipWith (fun oldc newc => if oldc.2 = om.1 then (newc.1, om.2) else newc)
        cells new_cells)
    (cells.map (fun c => (c.1, 0)))

/-- The commit loop of `Translator._translate` over all vertical sections. -/
def commitBlocks (palette_mappings : List (Nat × Nat)) (bs : Blocks) : Blocks :=
  ⟨bs.subs.map (fun s => (s.1, commitSub palette_mappings s.2))⟩

/-- The per-position override loop of the commit:
`for (x, y, z), new in block_mappings.items(): chunk.blocks[x, y, z] = new`.
A `Sum.inr` value is a raw `Block`; the chunk's integer index array cannot
hold it (spec §3: the array stores indices, never block values), so the
commit has no defined result then. -/
def applyBlockMappings (block_mappings : List ((Int × Int × Int) × BMVal))
    (bs : Blocks) : Option Blocks :=
  block_mappings.foldlM
    (fun bs' pv =>
      match pv.2 with
      | Sum.inl n => some (Blocks.setBlock bs' pv.1.1 pv.1.2.1 pv.1.2.2 n)
      | Sum.inr _ => none)
    bs

/-- `Translator._translate` (lines 52–193 of `translator.py`).  The global
`entity_support` flag of the `amulet` package (outside the shown sources) is
passed explicitly.  When no chunk-loader callback was supplied Phase 1 defers
nothing, so the placeholder callback handed to Phase 2 is never invoked. -/
def Translator._translate (entity_support : Bool) (chunk : Chunk)
    (palette : List PaletteEntry) (get_chunk_callback : Option GetChunkCallback)
    (translate_block : TranslateBlockCallback)
    (translate_entity : TranslateEntityCallback)
    (full_translate : Bool) : Option (Chunk × List PaletteEntry) :=
  if !full_translate then some (chunk, palette)
  else
    let st := phase1 entity_support chunk get_chunk_callback.isSome translate_block palette
    let gcc : GetChunkCallback :=
      match get_chunk_callback with
      | some f => f
      | none => fun _ _ => (chunk, palette)
    let st := phase2 entity_support chunk palette gcc translate_block st
    let st := if entity_support then entityPass translate_entity chunk st else st
    match applyBlockMappings st.block_mappings (commitBlocks st.palette_mappings chunk.blocks) with
    | none => none
    | some bs =>
      some ({ chunk with
                blocks := bs,
                block_entities := st.output_block_entities,
                entities := st.output_entities },
            st.finished.blocks.map PaletteEntry.blk)

/-- Modelled from the spec (§6): a per-version block rule —
`(Block|Entity|none, optional BlockEntity, needs_context)`. -/
abbrev BlockRule :=
  BlockBase → Option GetBlockCallback → Option (Block ⊕ Entity) × Option BlockEntity × Bool

/-- Modelled from the spec (§3, §6): the external `Version` service — block
and biome rules in both directions and the optional block-entity name maps. -/
structure Version where
  block_to_universal : BlockRule
  block_from_universal : BlockRule
  biome_to_universal : Int → Int
  biome_from_universal : Int → Int
  block_entity_map : Option (List (String × String))
  block_entity_map_inverse : List (String × String)

/-- The layer loop of the `translate_block` closures of `to_universal` and
`from_universal` (`for depth, block in enumerate((base,) + extras)`), with the
explicit `depth` counter. -/
def translateLayersGo (rule : BlockRule) (cb : Option GetBlockCallback) :
    Nat → List BlockBase → TranslateBlockResult → TranslateBlockResult
  | _, [], acc => acc
  | depth, b :: l, acc =>
    let ro := rule b cb
    let fb0 := acc.1
    let fbe0 := acc.2.1
    let fe0 := acc.2.2.1
    let fx0 := acc.2.2.2
    let fbp :=
      match ro.1 with
      | some (Sum.inl ob) =>
        ((match fb0 with | none => some ob | some fb => some (fb.add ob)),
         if depth = 0 then ro.2.1 else fbe0)
      | _ => (fb0, fbe0)
    let fe1 :=
      match ro.1 with
      | some (Sum.inr e) => fe0 ++ [e]
      | _ => fe0
    translateLayersGo rule cb (depth + 1) l (fbp.1, fbp.2, fe1, fx0 || ro.2.2)

/-- The `translate_block` closure that `to_universal`/`from_universal` bind
(identical in both, modulo which rule they consult and a log line): apply the
rule to the base layer and every extra layer, merging block results, keeping
the block-entity of depth 0 only, collecting entity results and OR-ing the
needs-context flags.  A tuple-wrapped entry has no layers to iterate (the
Python code would raise there; it is never reached for block palettes). -/
def translateBlockLayers (rule : BlockRule) (input_object : PaletteEntry)
    (cb : Option GetBlockCallback) : TranslateBlockResult :=
  match input_object with
  | PaletteEntry.blk b =>
    translateLayersGo rule cb 0 (b.base_block :: b.extra_blocks) (none, none, [], false)
  | PaletteEntry.wrapped _ _ => (none, none, [], false)

/-- The `translate_block` closure of `Translator.to_universal`. -/
def toUniversalTranslateBlock (version : Version) : TranslateBlockCallback :=
  translateBlockLayers version.block_to_universal

/-- The `translate_block` closure of `Translator.from_universal`. -/
def fromUniversalTranslateBlock (version : Version) : TranslateBlockCallback :=
  translateBlockLayers version.block_from_universal

/-- The (stub) `translate_entity` closure of `Translator.to_universal`. -/
def toUniversalTranslateEntity (_version : Version) : TranslateEntityCallback :=
  fun _ => (none, none, [])

/-- The (stub) `translate_entity` closure of `Translator.from_universal`. -/
def fromUniversalTranslateEntity (_version : Version) : TranslateEntityCallback :=
  fun _ => (none, none, [])

/-- `numpy.unique` on the biome array: the sorted list of distinct values.
Implemented by inserting into a sorted duplicate-free list. -/
def sortedInsert (v : Int) : List Int → List Int
  | [] => [v]
  | x :: l =>
    if v < x then v :: x :: l
    else if v = x then x :: l
    else x :: sortedInsert v l

/-- The sorted distinct values of a list (`numpy.unique`'s first result). -/
def sortedUnique (a : List Int) : List Int := a.foldr sortedInsert []

/-- `Translator._biomes_to_universal`: compress the biome array to its
distinct values and the inverse index (`numpy.unique(..., return_inverse)`),
translate each distinct value once, and expand back. -/
def Translator._biomes_to_universal (translator_version : Version)
    (biome_array : List Int) : List Int :=
  let biome_palette := sortedUnique biome_array
  let biome_compact_array := biome_array.map (fun v => (find_index v biome_palette).getD 0)
  let universal_biome_palette := biome_palette.map translator_version.biome_to_universal
  biome_compact_array.map (fun i => universal_biome_palette.getD i 0)

/-- `Translator._biomes_from_universal`: the mirror of
`Translator._biomes_to_universal` using the inverse biome rule. -/
def Translator._biomes_from_universal (translator_version : Version)
    (biome_array : List Int) : List Int :=
  let biome_palette := sortedUnique biome_array
  let biome_compact_array := biome_array.map (fun v => (find_index v biome_palette).getD 0)
  let universal_biome_palette := biome_palette.map translator_version.biome_from_universal
  biome_compact_array.map (fun i => universal_biome_palette.getD i 0)

/-- `Translator._pack_palette`: the base class's identity packing hook. -/
def Translator._pack_palette (_version : Version) (palette : List PaletteEntry) :
    List PaletteEntry := palette

/-- `Translator._unpack_palette`: the base class's identity unpacking hook. -/
def Translator._unpack_palette (_version : Version) (palette : List PaletteEntry) :
    List PaletteEntry := palette

/-- `Translator.to_universal` (lines 195–281): remap biomes, assign namespaced
names to block-entities through the version's name map (a miss only logs),
then run `_translate` with the universal-direction callbacks.  The version is
the one the translation manager resolves for the chunk's version key. -/
def Translator.to_universal (entity_support : Bool) (version : Version)
    (chunk : Chunk) (palette : List PaletteEntry)
    (get_chunk_callback : Option GetChunkCallback) (full_translate : Bool) :
    Option (Chunk × List PaletteEntry) :=
  let chunk := { chunk with biomes := Translator._biomes_to_universal version chunk.biomes }
  let chunk :=
    match version.block_entity_map with
    | some block_entity_map =>
      { chunk with block_entities := chunk.block_entities.map (fun block_entity =>
          if block_entity.ns.isNone &&
              (assocLookup block_entity_map block_entity.base_name).isSome then
            block_entity.set_namespaced_name
              ((assocLookup block_entity_map block_entity.base_name).getD "")
          else block_entity) }
    | none => chunk
  Translator._translate entity_support chunk palette get_chunk_callback
    (toUniversalTranslateBlock version) (toUniversalTranslateEntity version) full_translate

/-- `Translator.from_universal` (lines 283–373): run `_translate` with the
inverse-direction callbacks, re-pack the palette (identity in the base
class), remap biomes with the inverse rule and rename block-entities through
the inverse name map (gated, as in the source, on `block_entity_map`). -/
def Translator.from_universal (entity_support : Bool) (version : Version)
    (chunk : Chunk) (palette : List PaletteEntry)
    (get_chunk_callback : Option GetChunkCallback) (full_translate : Bool) :
    Option (Chunk × List PaletteEntry) :=
  match Translator._translate entity_support chunk palette get_chunk_callback
      (fromUniversalTranslateBlock version) (fromUniversalTranslateEntity version)
      full_translate with
  | none => none
  | some cp =>
    let chunk := cp.1
    let palette := Translator._pack_palette version cp.2
    let chunk := { chunk with biomes := Translator._biomes_from_universal version chunk.biomes }
    let chunk :=
      if version.block_entity_map.isSome then
        { chunk with block_entities := chunk.block_entities.map (fun block_entity =>
            match assocLookup version.block_entity_map_inverse block_entity.namespaced_name with
            | some s => block_entity.set_namespaced_name s
            | none => block_entity) }
      else chunk
    some (chunk, palette)

/-- Modelled from the spec (§6): the world state the replace operation sees —
the world palette and, for `world.get_chunk_slices(selection)`, the selected
block-array slices (each a flat list of palette indices). -/
structure World where
  palette : BlockManager
  chunk_slices : List (List Nat)
deriving DecidableEq

/-- `list(map(world.palette.get_add_block, blocks))`, threading the palette. -/
def mapGetAdd (m : BlockManager) : List Block → List Nat × BlockManager
  | [] => ([], m)
  | b :: l =>
    let p := m.get_add_block b
    let q := mapGetAdd p.2 l
    (p.1 :: q.1, q.2)

/-- Python's `l * n` list repetition. -/
def listTimes {α : Type} (l : List α) (n : Nat) : List α :=
  (List.replicate n l).flatten

/-- The `replace` operation (`src/amulet/operations/replace.py`).  The
isinstance validation at lines 18–26 never fires when both options are lists
of blocks, as here.  On a length mismatch with a single replacement the list
is broadcast; on any other mismatch the source logs an error (the returned
flag) and — having no `return` there — falls through and still performs the
replacement over the zip-truncated pairs. -/
def replace (world : World) (original_blocks replacement_blocks : List Block) :
    World × Bool :=
  let rb :=
    if original_blocks.length ≠ replacement_blocks.length then
      if replacement_blocks.length = 1 then
        (listTimes replacement_blocks original_blocks.length, false)
      else (replacement_blocks, true)
    else (replacement_blocks, false)
  let oi := mapGetAdd world.palette original_blocks
  let ri := mapGetAdd oi.2 rb.1
  let slices := world.chunk_slices.map (fun slice =>
    (oi.1.zip ri.1).foldl
      (fun cur p => List.zipWith (fun b c => if b = p.1 then p.2 else c) slice cur)
      slice)
  (⟨ri.2, slices⟩, rb.2)

/-! ### Specification-side reference definitions -/

/-- Spec §4.2 (Cross-Chunk Block Resolver), written from the spec's words:
compute the target position; if it falls within the chunk being translated
(both chunk-relative coordinates inside `[0, 16)`), resolve against the
current chunk's array, palette and block-entity mapping at the absolute
coordinates; otherwise fetch the owning chunk through the loader and resolve
equivalently; unwrap tuple-wrapped palette entries transparently. -/
def resolveSpec (get_chunk_callback : GetChunkCallback) (chunk : Chunk)
    (palette : List PaletteEntry) (x y z : Int) (pos : Int × Int × Int) :
    Block × Option BlockEntity :=
  let dx := x + pos.1
  let dy := y + pos.2.1
  let dz := z + pos.2.2
  let abs_x := chunk.cx * 16 + dx
  let abs_z := chunk.cz * 16 + dz
  if 0 ≤ dx ∧ dx < 16 ∧ 0 ≤ dz ∧ dz < 16 then
    (unwrapEntry (palette.getD (chunk.blocks.getBlock dx dy dz) default),
     findBlockEntity chunk.block_entities abs_x dy abs_z)
  else
    let lc := get_chunk_callback (dx / 16) (dz / 16)
    (unwrapEntry (lc.2.getD (lc.1.blocks.getBlock (dx % 16) dy (dz % 16)) default),
     findBlockEntity lc.1.block_entities abs_x dy abs_z)

/-- The palette indices Phase 1 defers: index `k` is deferred exactly when its
context-free translation requests context and a chunk-loader callback is
available. -/
def todoGo (translate_block : TranslateBlockCallback) (gcc_present : Bool) :
    Nat → List PaletteEntry → List Nat
  | _, [] => []
  | k, e :: l =>
    (if (translate_block e none).2.2.2 && gcc_present then [k] else []) ++
      todoGo translate_block gcc_present (k + 1) l

/-- The block-entities Phase 1 creates: for each non-deferred palette index
whose translation yields a block together with a block-entity, one instance
per occurrence of that index, at that occurrence's absolute world
coordinates. -/
def obeGo (translate_block : TranslateBlockCallback) (gcc_present : Bool)
    (bs : Blocks) (cx cz : Int) : Nat → List PaletteEntry → List BlockEntity
  | _, [] => []
  | k, e :: l =>
    (let r := translate_block e none
     if r.2.2.2 && gcc_present then []
     else
       match r.1, r.2.1 with
       | some _, some obe =>
         (occurrences bs k).map (fun o =>
           obe.new_at_location (o.2.1 + cx * 16) (o.2.2.1 + o.1 * 16) (o.2.2.2 + cz * 16))
       | _, _ => []) ++
      obeGo translate_block gcc_present bs cx cz (k + 1) l

/-- The entity clones Phase 1 creates: for each palette index whose
context-free translation yields entities (and entity support is on), one
deep copy per entity per occurrence, offset to that occurrence's absolute
world coordinates. -/
def oeGo (translate_block : TranslateBlockCallback) (entity_support : Bool)
    (bs : Blocks) (cx cz : Int) : Nat → List PaletteEntry → List Entity
  | _, [] => []
  | k, e :: l =>
    (let r := translate_block e none
     if !r.2.2.1.isEmpty && entity_support then
       (occurrences bs k).flatMap (fun o =>
         r.2.2.1.map (fun ent =>
           ent.offset (o.2.1 + cx * 16) (o.2.2.1 + o.1 * 16) (o.2.2.2 + cz * 16)))
     else []) ++
      oeGo translate_block entity_support bs cx cz (k + 1) l

/-- The palette-manager registrations Phase 1 performs, in order: skip
deferred indices and indices whose translation yields no block; register
every other index's output block and record the returned index. -/
def genRegGo (translate_block : TranslateBlockCallback) (gcc_present : Bool)
    (m : BlockManager) (pm : List (Nat × Nat)) :
    Nat → List PaletteEntry → BlockManager × List (Nat × Nat)
  | _, [] => (m, pm)
  | k, e :: l =>
    let r := translate_block e none
    if r.2.2.2 && gcc_present then
      genRegGo translate_block gcc_present m pm (k + 1) l
    else
      match r.1 with
      | some b =>
        let p := m.get_add_block b
        genRegGo translate_block gcc_present p.2 (assocInsert pm k p.1) (k + 1) l
      | none => genRegGo translate_block gcc_present m pm (k + 1) l

/-- The value a cell with old index `v` ends at after sequential masked
assignment over the mappings, starting from `a`. -/
def commitValFrom (palette_mappings : List (Nat × Nat)) (v : Nat) (a : Nat) : Nat :=
  palette_mappings.foldl (fun acc om => if v = om.1 then om.2 else acc) a

/-- The value a cell with old index `v` holds after the commit's palette-wide
rewrite: zero unless some mapping's old index matches (the last matching
mapping wins, as with sequential masked assignment). -/
def commitVal (palette_mappings : List (Nat × Nat)) (v : Nat) : Nat :=
  commitValFrom palette_mappings v 0

/-- A version whose block rules are pure 1:1 per-layer mappings `f` (to
universal) and `g` (from universal) with no block-entities, no entities and
no context requirement. -/
def pureVersion (f g : BlockBase → BlockBase) (bt bf : Int → Int)
    (bem : Option (List (String × String))) (bemi : List (String × String)) : Version :=
  { block_to_universal := fun b _ => (some (Sum.inl ⟨f b, []⟩), none, false),
    block_from_universal := fun b _ => (some (Sum.inl ⟨g b, []⟩), none, false),
    biome_to_universal := bt,
    biome_from_universal := bf,
    block_entity_map := bem,
    block_entity_map_inverse := bemi }

/-- Applying a per-layer mapping to every layer of a composite block: what the
layer-merging `translate_block` closure computes for a pure per-layer rule. -/
def mapLayers (h : BlockBase → BlockBase) (B : Block) : Block :=
  ⟨h B.base_block, B.extra_blocks.map h⟩

/-! ### Concrete objects used by witnesses and counterexamples -/

/-- Concrete block `A`. -/
def exA : Block := ⟨⟨"minecraft", "stone", []⟩, []⟩

/-- Concrete block `B`. -/
def exB : Block := ⟨⟨"minecraft", "dirt", []⟩, []⟩

/-- Concrete block `C`. -/
def exC : Block := ⟨⟨"minecraft", "sand", []⟩, []⟩

/-- Concrete block `D`. -/
def exD : Block := ⟨⟨"minecraft", "glass", []⟩, []⟩

/-- Concrete block `E`. -/
def exE : Block := ⟨⟨"minecraft", "wool", []⟩, []⟩

/-- A world whose palette already holds `A..E` and whose selection covers one
slice containing one `A` cell and one `B` cell. -/
def exWorld : World := ⟨⟨[exA, exB, exC, exD, exE]⟩, [[0, 1]]⟩

/-- A raw block returned by an entity translation. -/
def exRawBlock : Block := ⟨⟨"minecraft", "chest", []⟩, []⟩

/-- An entity sitting at integer position (1, 2, 3). -/
def exEntityPig : Entity := ⟨"minecraft", "pig", 1, 2, 3, 0⟩

/-- A chunk holding one cell and one entity. -/
def exChunkC4 : Chunk := ⟨0, 0, ⟨[(0, [((0, 0, 0), 0)])]⟩, [], [exEntityPig], []⟩

/-- A one-entry palette. -/
def exPalA : List PaletteEntry := [PaletteEntry.blk exA]

/-- A block-translate callback that always yields nothing. -/
def exTbNone : TranslateBlockCallback := fun _ _ => (none, none, [], false)

/-- An entity-translate callback yielding a block (the latent entity-pass
path of lines 170–177). -/
def exTeBlock : TranslateEntityCallback := fun _ => (some exRawBlock, none, [])

/-- An entity-translate callback yielding nothing (the source's stubs). -/
def exTeStub : TranslateEntityCallback := fun _ => (none, none, [])

/-- A universal output block. -/
def exOutB : Block := ⟨⟨"universal", "out", []⟩, []⟩

/-- An entity at the origin, produced during Phase 2. -/
def exEntItem : Entity := ⟨"minecraft", "item", 0, 0, 0, 7⟩

/-- A chunk at grid position (1, 1) with a single cell at local (3, 4, 5). -/
def exChunkC9 : Chunk := ⟨1, 1, ⟨[(0, [((3, 4, 5), 0)])]⟩, [], [], []⟩

/-- A block-translate callback that requests context when called without a
resolver and yields a block plus one entity when called with one. -/
def exTbC9 : TranslateBlockCallback := fun _ cb =>
  match cb with
  | none => (none, none, [], true)
  | some _ => (some exOutB, none, [exEntItem], false)

/-- A chunk-loader callback (never actually consulted in the scenario). -/
def exGccC9 : GetChunkCallback := fun _ _ => (exChunkC9, [PaletteEntry.blk exA])

/-- The identity per-layer rule (a pure 1:1 mapping that is its own inverse). -/
def exIdRule : BlockBase → BlockBase := fun b => b

/-- A version with identity block rules and a shifting biome rule. -/
def exVer : Version := pureVersion exIdRule exIdRule (fun v => v + 1) (fun v => v - 1) none []

/-- A chunk at grid position (2, -1) with two cells and a biome array. -/
def exChunkC1 : Chunk :=
  ⟨2, -1, ⟨[(0, [((0, 0, 0), 0), ((1, 0, 0), 1)])]⟩, [], [], [5, 5, 9]⟩

/-- A two-entry palette of distinct plain blocks. -/
def exPalC1 : List PaletteEntry := [PaletteEntry.blk exA, PaletteEntry.blk exB]

/-- A palette holding the same block at two distinct indices. -/
def exPalDup : List PaletteEntry := [PaletteEntry.blk exA, PaletteEntry.blk exA]

/-- A block-translate callback that returns the (unwrapped) input block
context-free. -/
def exTbUnwrap : TranslateBlockCallback := fun e _ => (some (unwrapEntry e), none, [], false)

/-- A trivially well-formed block container with one cell. -/
def exBlocksC10 : Blocks := ⟨[(0, [((1, 2, 3), 5)])]⟩

/-! ### Helper lemmas -/

theorem find_index_eq_none {α : Type} [DecidableEq α] {a : α} :
    ∀ {l : List α}, find_index a l = none ↔ a ∉ l := by
  intro l
  induction l with
  | nil => simp [find_index]
  | cons x l ih =>
    simp only [find_index]
    by_cases hx : x = a
    · simp [hx]
    · simp only [if_neg hx, Option.map_eq_none', ih, List.mem_cons]
      constructor
      · intro h hc
        rcases hc with hc | hc
        · exact hx hc.symm
        · exact h hc
      · intro h hc
        exact h (Or.inr hc)

theorem find_index_some {α : Type} [DecidableEq α] {a : α} :
    ∀ {l : List α} {n : Nat}, find_index a l = some n →
      l.get? n = some a ∧ ∀ k, k < n → l.get? k ≠ some a := by
  intro l
  induction l with
  | nil => intro n h; simp [find_index] at h
  | cons x l ih =>
    intro n h
    simp only [find_index] at h
    by_cases hx : x = a
    · rw [if_pos hx] at h
      cases h
      refine ⟨by simp [hx], ?_⟩
      intro k hk
      exact absurd hk (Nat.not_lt_zero k)
    · rw [if_neg hx] at h
      rcases Option.map_eq_some'.mp h with ⟨m, hm, hn⟩
      subst hn
      rcases ih hm with ⟨h1, h2⟩
      refine ⟨by simpa using h1, ?_⟩
      intro k hk
      cases k with
      | zero => simpa using fun hc => hx hc
      | succ k' => simpa using h2 k' (by omega)

theorem find_index_of_mem {α : Type} [DecidableEq α] {a : α} {l : List α}
    (h : a ∈ l) : ∃ n, find_index a l = some n := by
  cases hf : find_index a l with
  | none => exact absurd h (find_index_eq_none.mp hf)
  | some n => exact ⟨n, rfl⟩

theorem get_add_block_of_mem {m : BlockManager} {b : Block} (h : b ∈ m.blocks) :
    ∃ n, m.get_add_block b = (n, m) ∧ m.blocks.get? n = some b ∧
      ∀ k, k < n → m.blocks.get? k ≠ some b := by
  rcases find_index_of_mem h with ⟨n, hn⟩
  rcases find_index_some hn with ⟨h1, h2⟩
  exact ⟨n, by simp [BlockManager.get_add_block, hn], h1, h2⟩

theorem get_add_block_of_not_mem {m : BlockManager} {b : Block} (h : b ∉ m.blocks) :
    m.get_add_block b = (m.blocks.length, ⟨m.blocks ++ [b]⟩) := by
  simp [BlockManager.get_add_block, find_index_eq_none.mpr h]

theorem get_add_block_spec (m : BlockManager) (b : Block) :
    (∃ t, ((m.get_add_block b).2).blocks = m.blocks ++ t) ∧
      ((m.get_add_block b).2).blocks.get? (m.get_add_block b).1 = some b ∧
      (m.blocks.Nodup → ((m.get_add_block b).2).blocks.Nodup) := by
  by_cases h : b ∈ m.blocks
  · rcases get_add_block_of_mem h with ⟨n, h1, h2, _⟩
    rw [h1]
    exact ⟨⟨[], by simp⟩, h2, fun hd => hd⟩
  · rw [get_add_block_of_not_mem h]
    refine ⟨⟨[b], rfl⟩, ?_, ?_⟩
    · simp
    · intro hd
      simp [List.nodup_append, hd, h]

theorem assocLookup_append_left {κ ν : Type} [DecidableEq κ] {l₁ : List (κ × ν)}
    (l₂ : List (κ × ν)) {k : κ} {v : ν} (h : assocLookup l₁ k = some v) :
    assocLookup (l₁ ++ l₂) k = some v := by
  induction l₁ with
  | nil => simp [assocLookup] at h
  | cons p l ih =>
    by_cases hp : p.1 = k
    · simp_all [assocLookup]
    · simp only [assocLookup, if_neg hp] at h
      simp only [List.cons_append, assocLookup, if_neg hp]
      exact ih h

theorem assocLookup_eq_none {κ ν : Type} [DecidableEq κ] {l : List (κ × ν)} {k : κ}
    (h : ∀ p ∈ l, p.1 ≠ k) : assocLookup l k = none := by
  induction l with
  | nil => rfl
  | cons p l ih =>
    simp only [assocLookup, if_neg (h p (by simp))]
    exact ih (fun q hq => h q (by simp [hq]))

theorem assocLookup_append_right {κ ν : Type} [DecidableEq κ] {l₁ : List (κ × ν)}
    {l₂ : List (κ × ν)} {k : κ} (h : ∀ p ∈ l₁, p.1 ≠ k) :
    assocLookup (l₁ ++ l₂) k = assocLookup l₂ k := by
  induction l₁ with
  | nil => rfl
  | cons p l ih =>
    simp only [List.cons_append, assocLookup, if_neg (h p (by simp))]
    exact ih (fun q hq => h q (by simp [hq]))

theorem assocInsert_of_not_mem {κ ν : Type} [DecidableEq κ] {l : List (κ × ν)} {k : κ}
    (v : ν) (h : ∀ p ∈ l, p.1 ≠ k) : assocInsert l k v = l ++ [(k, v)] := by
  have hk : k ∉ l.map (fun p => p.1) := by
    intro hc
    rcases List.mem_map.mp hc with ⟨p, hp, hpk⟩
    exact h p hp hpk
  simp [assocInsert, hk]

theorem sortedInsert_mem {v w : Int} :
    ∀ {l : List Int}, w ∈ sortedInsert v l ↔ w = v ∨ w ∈ l := by
  intro l
  induction l with
  | nil => simp [sortedInsert]
  | cons x l ih =>
    simp only [sortedInsert]
    by_cases h1 : v < x
    · simp [if_pos h1, List.mem_cons]
    · by_cases h2 : v = x
      · simp only [if_neg h1, if_pos h2, List.mem_cons]
        subst h2
        tauto
      · simp only [if_neg h1, if_neg h2, List.mem_cons, ih]
        tauto

theorem sortedInsert_sorted {v : Int} :
    ∀ {l : List Int}, l.Sorted (· < ·) → (sortedInsert v l).Sorted (· < ·) := by
  intro l
  induction l with
  | nil => intro _; simp [sortedInsert]
  | cons x l ih =>
    intro hs
    rcases List.sorted_cons.mp hs with ⟨hx, hl⟩
    simp only [sortedInsert]
    by_cases h1 : v < x
    · rw [if_pos h1]
      refine List.sorted_cons.mpr ⟨?_, hs⟩
      intro b hb
      rcases List.mem_cons.mp hb with hb | hb
      · omega
      · have := hx b hb
        omega
    · by_cases h2 : v = x
      · rw [if_neg h1, if_pos h2]
        exact hs
      · rw [if_neg h1, if_neg h2]
        refine List.sorted_cons.mpr ⟨?_, ih hl⟩
        intro b hb
        rcases sortedInsert_mem.mp hb with hb | hb
        · omega
        · exact hx b hb

theorem sortedUnique_sorted (a : List Int) : (sortedUnique a).Sorted (· < ·) := by
  induction a with
  | nil => simp [sortedUnique]
  | cons x a ih => exact sortedInsert_sorted ih

theorem sortedUnique_mem {w : Int} :
    ∀ {a : List Int}, w ∈ sortedUnique a ↔ w ∈ a := by
  intro a
  induction a with
  | nil => simp [sortedUnique]
  | cons x a ih =>
    show w ∈ sortedInsert x (sortedUnique a) ↔ _
    rw [sortedInsert_mem, ih, List.mem_cons]

theorem sortedUnique_nodup (a : List Int) : (sortedUnique a).Nodup :=
  (sortedUnique_sorted a).nodup

theorem biomes_expand_eq_map (rule : Int → Int) (a : List Int) :
    (a.map (fun v => (find_index v (sortedUnique a)).getD 0)).map
        (fun i => ((sortedUnique a).map rule).getD i 0) = a.map rule := by
  rw [List.map_map]
  apply List.map_congr_left
  intro v hv
  have hmem : v ∈ sortedUnique a := sortedUnique_mem.mpr hv
  rcases find_index_of_mem hmem with ⟨n, hn⟩
  rcases find_index_some hn with ⟨h1, _⟩
  simp only [Function.comp_apply, hn, Option.getD_some]
  rw [List.getD_eq_getD_get?, List.get?_map, h1]
  rfl

/-! ### Claim theorems -/

/-- C3: `_biomes_to_universal` and `_biomes_from_universal` each return the
array obtained by applying the version's per-value biome rule to every cell
independently, and the rule is mapped over `sortedUnique a` — the
duplicate-free list of exactly the distinct values present — so it is invoked
exactly once per distinct value (`k` invocations for cardinality `k`),
regardless of the number of cells. -/
theorem claim_C3_biome_compression (ver : Version) (a : List Int) :
    Translator._biomes_to_universal ver a = a.map ver.biome_to_universal ∧
    Translator._biomes_from_universal ver a = a.map ver.biome_from_universal ∧
    (sortedUnique a).Nodup ∧
    (∀ v, v ∈ sortedUnique a ↔ v ∈ a) ∧
    (sortedUnique a).length = a.toFinset.card := by
  refine ⟨biomes_expand_eq_map ver.biome_to_universal a,
    biomes_expand_eq_map ver.biome_from_universal a,
    sortedUnique_nodup a, fun v => sortedUnique_mem, ?_⟩
  have h1 : (sortedUnique a).toFinset = a.toFinset := by
    apply Finset.ext
    intro v
    simp [List.mem_toFinset, sortedUnique_mem]
  rw [← List.toFinset_card_of_nodup (sortedUnique_nodup a), h1]

/-- Witness for C3 at a concrete array of cardinality 3. -/
theorem claim_C3_biome_compression_witness :
    Translator._biomes_to_universal exVer [3, 1, 3, 7] = [4, 2, 4, 8] ∧
    (sortedUnique [3, 1, 3, 7]).Nodup ∧
    ((3 : Int) ∈ sortedUnique [3, 1, 3, 7] ↔ (3 : Int) ∈ [3, 1, 3, 7]) ∧
    (sortedUnique [3, 1, 3, 7]).length = 3 := by
  obtain ⟨h1, _, h3, h4, _⟩ := claim_C3_biome_compression exVer [3, 1, 3, 7]
  exact ⟨h1.trans (by decide), h3, h4 3, by decide⟩

/-- C2: with `original_blocks = [A, B]` and `replacement_blocks = [C, D, E]`
the replace operation does log the mismatch error (the `true` flag), but —
contrary to the claim — it does not abort: it falls through and rewrites the
selection over the zip-truncated pairs, so the slice holding an `A` cell and a
`B` cell (indices `[0, 1]`) becomes `[2, 3]` (`C` and `D`).  The block array
is mutated. -/
theorem claim_C2_replace_mismatch_mutates :
    replace exWorld [exA, exB] [exC, exD, exE] =
      (⟨⟨[exA, exB, exC, exD, exE]⟩, [[2, 3]]⟩, true) ∧
    (replace exWorld [exA, exB] [exC, exD, exE]).1.chunk_slices ≠ exWorld.chunk_slices := by
  exact ⟨by decide, by decide⟩

/-- C4: at a chunk holding one entity whose entity-translation yields a block,
the entity pass records in `block_mappings` the raw output `Block`
(`Sum.inr exRawBlock`) at the floor of the entity's position — not an index
obtained from the output palette manager (whose block list is in fact empty) —
and the full `_translate` call therefore has no well-defined committed integer
array (`none` in this embedding). -/
theorem claim_C4_entity_pass_raw_block :
    (entityPass exTeBlock exChunkC4
        (phase2 true exChunkC4 exPalA (fun _ _ => (exChunkC4, exPalA)) exTbNone
          (phase1 true exChunkC4 false exTbNone exPalA))).block_mappings =
      [((1, 2, 3), Sum.inr exRawBlock)] ∧
    (entityPass exTeBlock exChunkC4
        (phase2 true exChunkC4 exPalA (fun _ _ => (exChunkC4, exPalA)) exTbNone
          (phase1 true exChunkC4 false exTbNone exPalA))).finished.blocks = [] ∧
    Translator._translate true exChunkC4 exPalA none exTbNone exTeBlock true = none := by
  exact ⟨by decide, by decide, by decide⟩

/-- C9: for a chunk at grid position (1, 1) with a deferred index occurring at
local position (3, 4, 5), a Phase-2 translation yielding one entity at the
origin produces an output entity at location (3, 4, 5) — the clone is offset
by the local x and z, without the chunk-origin terms 16·cx and 16·cz that
Phase 1 applies (the claim's expected location would be (19, 4, 21)). -/
theorem claim_C9_phase2_entity_offset :
    Translator._translate true exChunkC9 [PaletteEntry.blk exA] (some exGccC9)
        exTbC9 exTeStub true =
      some (⟨1, 1, ⟨[(0, [((3, 4, 5), 0)])]⟩, [],
             [⟨"minecraft", "item", 3, 4, 5, 7⟩], []⟩,
            [PaletteEntry.blk exOutB]) := by
  simp only [Translator._translate, phase1, phase1Go, phase1Step, phase2, phase2PosStep,
    entityPass, entityPassStep, initState, occurrences, subWhere, commitBlocks, commitSub,
    applyBlockMappings, Blocks.setBlock, Blocks.getBlock, assocLookup, assocInsert,
    BlockManager.get_add_block, find_index, get_block_at, exTbC9, exGccC9, exTeStub,
    exChunkC9, Entity.offset, exEntItem, exOutB, exA, List.foldl, List.foldlM,
    List.flatMap, List.filter, List.map, List.zipWith, List.getD]
  norm_num

theorem zipWith_map_self {α β γ : Type} (f : α → β → γ) (h : α → β) :
    ∀ l : List α, List.zipWith f l (l.map h) = l.map (fun a => f a (h a)) := by
  intro l
  induction l with
  | nil => rfl
  | cons x l ih => simp [List.zipWith, ih]

theorem commitValFrom_of_not_mem {pm : List (Nat × Nat)} {v : Nat}
    (h : ∀ p ∈ pm, v ≠ p.1) : ∀ a, commitValFrom pm v a = a := by
  induction pm with
  | nil => intro a; rfl
  | cons om pm ih =>
    intro a
    show commitValFrom pm v (if v = om.1 then om.2 else a) = a
    rw [if_neg (h om (by simp))]
    exact ih (fun p hp => h p (by simp [hp])) a

theorem commitVal_lookup {v n : Nat} :
    ∀ {pm : List (Nat × Nat)}, (pm.map (fun p => p.1)).Nodup →
      assocLookup pm v = some n → commitVal pm v = n := by
  suffices H : ∀ (pm : List (Nat × Nat)) (a : Nat),
      (pm.map (fun p => p.1)).Nodup → assocLookup pm v = some n →
      commitValFrom pm v a = n by
    intro pm hnd h
    exact H pm 0 hnd h
  intro pm
  induction pm with
  | nil =>
    intro a _ h'
    simp [assocLookup] at h'
  | cons om pm ih =>
    intro a hnd' h'
    simp only [List.map_cons, List.nodup_cons] at hnd'
    show commitValFrom pm v (if v = om.1 then om.2 else a) = n
    by_cases hv : om.1 = v
    · rw [if_pos hv.symm]
      simp only [assocLookup, if_pos hv, Option.some.injEq] at h'
      subst h'
      apply commitValFrom_of_not_mem
      intro p hp hc
      exact hnd'.1 (hv ▸ hc ▸ List.mem_map_of_mem (fun p => p.1) hp)
    · rw [if_neg (fun hc => hv hc.symm)]
      simp only [assocLookup, if_neg hv] at h'
      exact ih a hnd'.2 h'

theorem commitSub_eq_map (pm : List (Nat × Nat)) (cells : SubCells) :
    commitSub pm cells = cells.map (fun c => (c.1, commitVal pm c.2)) := by
  suffices H : ∀ (pm : List (Nat × Nat)) (g : Nat → Nat),
      pm.foldl
        (fun new_cells om =>
          List.zipWith (fun oldc newc => if oldc.2 = om.1 then (newc.1, om.2) else newc)
            cells new_cells)
        (cells.map (fun c => (c.1, g c.2))) =
      cells.map (fun c => (c.1, commitValFrom pm c.2 (g c.2))) by
    have h0 := H pm (fun _ => 0)
    simpa [commitSub, commitVal] using h0
  intro pm
  induction pm with
  | nil =>
    intro g
    simp [commitValFrom]
  | cons om pm ih =>
    intro g
    simp only [List.foldl_cons]
    rw [zipWith_map_self]
    have hstep :
        (cells.map (fun c =>
          (fun oldc newc => if oldc.2 = om.1 then (newc.1, om.2) else newc) c (c.1, g c.2))) =
        cells.map (fun c => (c.1, (fun v => if v = om.1 then om.2 else g v) c.2)) := by
      apply List.map_congr_left
      intro c _
      by_cases hc : c.2 = om.1
      · simp [hc]
      · simp [hc]
    rw [hstep, ih (fun v => if v = om.1 then om.2 else g v)]
    rfl

theorem assocLookup_map_snd {κ ν μ : Type} [DecidableEq κ] (F : ν → μ) :
    ∀ (l : List (κ × ν)) (k : κ),
      assocLookup (l.map (fun s => (s.1, F s.2))) k = (assocLookup l k).map F := by
  intro l
  induction l with
  | nil => intro k; rfl
  | cons s l ih =>
    intro k
    by_cases hs : s.1 = k
    · simp [assocLookup, hs]
    · simp only [List.map_cons, assocLookup, if_neg hs]
      exact ih k

theorem assocLookup_of_mem_nodup {κ ν : Type} [DecidableEq κ] {p : κ} {v : ν} :
    ∀ {l : List (κ × ν)}, (p, v) ∈ l → (l.map (fun q => q.1)).Nodup →
      assocLookup l p = some v := by
  intro l
  induction l with
  | nil => intro h _; simp at h
  | cons q l ih =>
    intro h hnd
    simp only [List.map_cons, List.nodup_cons] at hnd
    rcases List.mem_cons.mp h with h | h
    · subst h
      simp [assocLookup]
    · have hne : q.1 ≠ p := by
        intro hc
        exact hnd.1 (hc ▸ (List.mem_map_of_mem (fun q => q.1) h : (p, v).1 ∈ _))
      simp only [assocLookup, if_neg hne]
      exact ih h hnd.2

theorem getBlock_commitBlocks (pm : List (Nat × Nat)) (bs : Blocks) (x y z : Int) :
    (commitBlocks pm bs).getBlock x y z =
      match assocLookup bs.subs (y / 16) with
      | none => 0
      | some cells =>
        match assocLookup cells (x, y % 16, z) with
        | none => 0
        | some v => commitVal pm v := by
  show (⟨bs.subs.map (fun s => (s.1, commitSub pm s.2))⟩ : Blocks).getBlock x y z = _
  unfold Blocks.getBlock
  rw [assocLookup_map_snd (commitSub pm) bs.subs (y / 16)]
  cases assocLookup bs.subs (y / 16) with
  | none => rfl
  | some cells =>
    simp only [Option.map_some']
    rw [commitSub_eq_map]
    rw [assocLookup_map_snd (commitVal pm) cells (x, y % 16, z)]
    cases assocLookup cells (x, y % 16, z) with
    | none => rfl
    | some v => rfl

theorem assocLookup_cons {κ ν : Type} [DecidableEq κ] (p : κ × ν) (l : List (κ × ν))
    (k : κ) : assocLookup (p :: l) k = if p.1 = k then some p.2 else assocLookup l k :=
  rfl

theorem assocLookup_map_upd_ne {κ ν : Type} [DecidableEq κ] {K K' : κ} (v : ν)
    (h : K' ≠ K) :
    ∀ (l : List (κ × ν)),
      assocLookup (l.map (fun c => if c.1 = K' then (c.1, v) else c)) K =
        assocLookup l K := by
  intro l
  induction l with
  | nil => rfl
  | cons c l ih =>
    simp only [List.map_cons]
    by_cases hc : c.1 = K'
    · rw [if_pos hc, assocLookup_cons, assocLookup_cons]
      have hck : ¬ c.1 = K := fun hcontra => h (hc ▸ hcontra)
      show (if c.1 = K then _ else _) = _
      rw [if_neg hck, if_neg hck]
      exact ih
    · rw [if_neg hc, assocLookup_cons, assocLookup_cons]
      by_cases hk : c.1 = K
      · rw [if_pos hk, if_pos hk]
      · rw [if_neg hk, if_neg hk]
        exact ih

theorem getBlock_setBlock_ne (bs : Blocks) {x y z x' y' z' : Int} (v : Nat)
    (h : ¬(x' = x ∧ y' = y ∧ z' = z)) :
    (bs.setBlock x' y' z' v).getBlock x y z = bs.getBlock x y z := by
  unfold Blocks.setBlock Blocks.getBlock
  by_cases hd : y / 16 = y' / 16
  · have hkey :
        assocLookup (bs.subs.map (fun s =>
          if s.1 = y' / 16 then
            (s.1, s.2.map (fun c => if c.1 = (x', y' % 16, z') then (c.1, v) else c))
          else s)) (y / 16) =
        (assocLookup bs.subs (y / 16)).map (fun cells =>
          cells.map (fun c => if c.1 = (x', y' % 16, z') then (c.1, v) else c)) := by
      induction bs.subs with
      | nil => rfl
      | cons s l ih =>
        rw [List.map_cons]
        by_cases hs : s.1 = y / 16
        · have hs' : s.1 = y' / 16 := hd ▸ hs
          rw [if_pos hs', assocLookup_cons, assocLookup_cons]
          show (if s.1 = y / 16 then _ else _) = _
          rw [if_pos hs, if_pos hs]
          rfl
        · have hs' : ¬ s.1 = y' / 16 := fun hcontra => hs (hd ▸ hcontra)
          rw [if_neg hs', assocLookup_cons, assocLookup_cons]
          rw [if_neg hs, if_neg hs]
          exact ih
    rw [hkey]
    cases hc : assocLookup bs.subs (y / 16) with
    | none => rfl
    | some cells =>
      simp only [Option.map_some']
      have hne : (x', y' % 16, z') ≠ (x, y % 16, z) := by
        intro hcontra
        apply h
        have h1 : x' = x := congrArg (fun p => p.1) hcontra
        have h2 : y' % 16 = y % 16 := congrArg (fun p => p.2.1) hcontra
        have h3 : z' = z := congrArg (fun p => p.2.2) hcontra
        refine ⟨h1, ?_, h3⟩
        omega
      rw [assocLookup_map_upd_ne v hne cells]
  · have hkey :
        assocLookup (bs.subs.map (fun s =>
          if s.1 = y' / 16 then
            (s.1, s.2.map (fun c => if c.1 = (x', y' % 16, z') then (c.1, v) else c))
          else s)) (y / 16) =
        assocLookup bs.subs (y / 16) := by
      induction bs.subs with
      | nil => rfl
      | cons s l ih =>
        rw [List.map_cons]
        by_cases hs' : s.1 = y' / 16
        · have hs : ¬ s.1 = y / 16 := fun hcontra => hd (by rw [← hcontra, hs'])
          rw [if_pos hs', assocLookup_cons, assocLookup_cons]
          show (if s.1 = y / 16 then _ else _) = _
          rw [if_neg hs, if_neg hs]
          exact ih
        · rw [if_neg hs', assocLookup_cons, assocLookup_cons]
          by_cases hs : s.1 = y / 16
          · rw [if_pos hs, if_pos hs]
          · rw [if_neg hs, if_neg hs]
            exact ih
    rw [hkey]

theorem applyBlockMappings_getBlock {x y z : Int} :
    ∀ (bm : List ((Int × Int × Int) × BMVal)) (bs : Blocks),
      (∀ q ∈ bm, ∃ n, q.2 = Sum.inl n) →
      (∀ q ∈ bm, q.1 ≠ (x, y, z)) →
      ∃ bs', applyBlockMappings bm bs = some bs' ∧
        bs'.getBlock x y z = bs.getBlock x y z := by
  intro bm
  induction bm with
  | nil =>
    intro bs _ _
    exact ⟨bs, rfl, rfl⟩
  | cons q bm ih =>
    intro bs hinl hne
    rcases hinl q (by simp) with ⟨n, hn⟩
    have hstep : applyBlockMappings (q :: bm) bs =
        applyBlockMappings bm (Blocks.setBlock bs q.1.1 q.1.2.1 q.1.2.2 n) := by
      simp [applyBlockMappings, hn]
    rcases ih (Blocks.setBlock bs q.1.1 q.1.2.1 q.1.2.2 n)
        (fun p hp => hinl p (by simp [hp])) (fun p hp => hne p (by simp [hp])) with
      ⟨bs', h1, h2⟩
    refine ⟨bs', by rw [hstep]; exact h1, ?_⟩
    rw [h2]
    apply getBlock_setBlock_ne
    intro hcontra
    apply hne q (by simp)
    rcases hcontra with ⟨ha, hb, hc⟩
    have hq : q.1 = (q.1.1, q.1.2.1, q.1.2.2) := rfl
    rw [hq, ha, hb, hc]

/-- C10: at commit, each section's new array is zero-initialised and only old
indices with a palette-wide mapping are substituted, so a cell whose old
index `v` received no palette-wide mapping and whose position received no
per-position override holds index 0 in the committed array. -/
theorem claim_C10_commit_zero_default
    (blocks : Blocks) (pm : List (Nat × Nat)) (bm : List ((Int × Int × Int) × BMVal))
    (cy : Int) (cells : SubCells) (x yl z : Int) (v : Nat)
    (hwf : Blocks.WF blocks)
    (h1 : (cy, cells) ∈ blocks.subs)
    (h2 : ((x, yl, z), v) ∈ cells)
    (h3 : ∀ p ∈ pm, v ≠ p.1)
    (h4 : ∀ q ∈ bm, q.1 ≠ (x, yl + 16 * cy, z))
    (h5 : ∀ q ∈ bm, ∃ n, q.2 = Sum.inl n) :
    ∃ bs', applyBlockMappings bm (commitBlocks pm blocks) = some bs' ∧
      bs'.getBlock x (yl + 16 * cy) z = 0 := by
  rcases applyBlockMappings_getBlock bm (commitBlocks pm blocks) h5 h4 with ⟨bs', hA, hB⟩
  refine ⟨bs', hA, ?_⟩
  rw [hB, getBlock_commitBlocks]
  have hbound := (hwf.2 (cy, cells) h1).2 ((x, yl, z), v) h2
  have hyl1 : 0 ≤ yl := hbound.2.2.1
  have hyl2 : yl < 16 := hbound.2.2.2.1
  have hdiv : (yl + 16 * cy) / 16 = cy := by omega
  have hmod : (yl + 16 * cy) % 16 = yl := by omega
  rw [hdiv, hmod]
  have hsub : assocLookup blocks.subs cy = some cells :=
    assocLookup_of_mem_nodup h1 hwf.1
  rw [hsub]
  have hcell : assocLookup cells (x, yl, z) = some v :=
    assocLookup_of_mem_nodup h2 (hwf.2 (cy, cells) h1).1
  show (match assocLookup cells (x, yl, z) with
        | none => 0
        | some v => commitVal pm v) = 0
  rw [hcell]
  show commitVal pm v = 0
  exact commitValFrom_of_not_mem h3 0

/-- Witness for C10 at a concrete one-cell section with an unmapped index. -/
theorem claim_C10_commit_zero_default_witness :
    Blocks.WF exBlocksC10 ∧
    (∃ bs', applyBlockMappings [((9, 9, 9), Sum.inl 4)] (commitBlocks [(0, 7)] exBlocksC10) =
        some bs' ∧ bs'.getBlock 1 (2 + 16 * 0) 3 = 0) := by
  have hwf : Blocks.WF exBlocksC10 := by unfold Blocks.WF; decide
  refine ⟨hwf, ?_⟩
  refine claim_C10_commit_zero_default exBlocksC10 [(0, 7)] [((9, 9, 9), Sum.inl 4)]
    0 [((1, 2, 3), 5)] 1 2 3 5 hwf (by decide) (by decide) (by decide) ?_ ?_
  · intro q hq
    rcases List.mem_singleton.mp hq with rfl
    decide
  · intro q hq
    rcases List.mem_singleton.mp hq with rfl
    exact ⟨4, rfl⟩

/-- C8: the source's `get_block_at` closure coincides with the spec's resolver
contract (§4.2): the target is the offset position; when the target's
chunk-relative coordinates lie inside the current chunk (equivalently, both
floor-divisions by 16 are zero) it is resolved against the current chunk's
array, palette and block-entity mapping at absolute coordinates; otherwise
the owning chunk is fetched through the chunk-loader callback and resolved
equivalently; a tuple-wrapped palette entry is unwrapped in both cases. -/
theorem claim_C8_resolver (gcc : GetChunkCallback) (chunk : Chunk)
    (palette : List PaletteEntry) (x y z : Int) (pos : Int × Int × Int) :
    get_block_at gcc chunk palette x y z pos = resolveSpec gcc chunk palette x y z pos := by
  simp only [get_block_at, resolveSpec]
  rw [show pos.1 + x = x + pos.1 from by ring,
      show pos.2.1 + y = y + pos.2.1 from by ring,
      show pos.2.2 + z = z + pos.2.2 from by ring,
      show x + pos.1 + chunk.cx * 16 = chunk.cx * 16 + (x + pos.1) from by ring,
      show z + pos.2.2 + chunk.cz * 16 = chunk.cz * 16 + (z + pos.2.2) from by ring]
  by_cases h : 0 ≤ x + pos.1 ∧ x + pos.1 < 16 ∧ 0 ≤ z + pos.2.2 ∧ z + pos.2.2 < 16
  · rw [if_pos h,
        if_pos (show (x + pos.1) / 16 = 0 ∧ (z + pos.2.2) / 16 = 0 from by omega)]
  · rw [if_neg h,
        if_neg (show ¬((x + pos.1) / 16 = 0 ∧ (z + pos.2.2) / 16 = 0) from by omega)]

theorem phase1Go_eq (es : Bool) (chunk : Chunk) (gccP : Bool)
    (tb : TranslateBlockCallback) :
    ∀ (l : List PaletteEntry) (k : Nat) (st : TState),
      phase1Go es chunk gccP tb k l st =
        { todo := st.todo ++ todoGo tb gccP k l,
          output_block_entities :=
            st.output_block_entities ++ obeGo tb gccP chunk.blocks chunk.cx chunk.cz k l,
          output_entities :=
            st.output_entities ++ oeGo tb es chunk.blocks chunk.cx chunk.cz k l,
          finished := (genRegGo tb gccP st.finished st.palette_mappings k l).1,
          palette_mappings := (genRegGo tb gccP st.finished st.palette_mappings k l).2,
          block_mappings := st.block_mappings } := by
  intro l
  induction l with
  | nil =>
    intro k st
    simp [phase1Go, todoGo, obeGo, oeGo, genRegGo]
  | cons e l ih =>
    intro k st
    show phase1Go es chunk gccP tb (k + 1) l (phase1Step es chunk gccP tb st (k, e)) = _
    rw [ih]
    rcases hr : tb e none with ⟨ob, obe, oe, extra⟩
    by_cases h1 : (extra && gccP) = true
    · by_cases h2 : (!oe.isEmpty && es) = true
      · simp [phase1Step, todoGo, obeGo, oeGo, genRegGo, hr, h1, h2, List.append_assoc]
      · simp [phase1Step, todoGo, obeGo, oeGo, genRegGo, hr, h1, h2, List.append_assoc]
    · cases ob with
      | none =>
        by_cases h2 : (!oe.isEmpty && es) = true
        · simp [phase1Step, todoGo, obeGo, oeGo, genRegGo, hr, h1, h2, List.append_assoc]
        · simp [phase1Step, todoGo, obeGo, oeGo, genRegGo, hr, h1, h2, List.append_assoc]
      | some b =>
        cases obe with
        | none =>
          by_cases h2 : (!oe.isEmpty && es) = true
          · simp [phase1Step, todoGo, obeGo, oeGo, genRegGo, hr, h1, h2, List.append_assoc]
          · simp [phase1Step, todoGo, obeGo, oeGo, genRegGo, hr, h1, h2, List.append_assoc]
        | some be =>
          by_cases h2 : (!oe.isEmpty && es) = true
          · simp [phase1Step, todoGo, obeGo, oeGo, genRegGo, hr, h1, h2, List.append_assoc]
          · simp [phase1Step, todoGo, obeGo, oeGo, genRegGo, hr, h1, h2, List.append_assoc]

theorem genRegGo_blocks_append (tb : TranslateBlockCallback) (gccP : Bool) :
    ∀ (l : List PaletteEntry) (k : Nat) (m : BlockManager) (pm : List (Nat × Nat)),
      ∃ t, (genRegGo tb gccP m pm k l).1.blocks = m.blocks ++ t := by
  intro l
  induction l with
  | nil =>
    intro k m pm
    exact ⟨[], by simp [genRegGo]⟩
  | cons e l ih =>
    intro k m pm
    rcases hr : tb e none with ⟨ob, obe, oe, extra⟩
    by_cases h1 : (extra && gccP) = true
    · simp only [genRegGo, hr, h1]
      exact ih (k + 1) m pm
    · cases ob with
      | none =>
        simp only [genRegGo, hr, h1]
        simp only [Bool.false_eq_true, if_false]
        exact ih (k + 1) m pm
      | some b =>
        simp only [genRegGo, hr, h1]
        simp only [Bool.false_eq_true, if_false]
        rcases ih (k + 1) (m.get_add_block b).2 (assocInsert pm k (m.get_add_block b).1) with ⟨t, ht⟩
        rcases (get_add_block_spec m b).1 with ⟨t', ht'⟩
        exact ⟨t' ++ t, by rw [ht, ht', List.append_assoc]⟩

theorem genRegGo_nodup (tb : TranslateBlockCallback) (gccP : Bool) :
    ∀ (l : List PaletteEntry) (k : Nat) (m : BlockManager) (pm : List (Nat × Nat)),
      m.blocks.Nodup → (genRegGo tb gccP m pm k l).1.blocks.Nodup := by
  intro l
  induction l with
  | nil =>
    intro k m pm h
    simpa [genRegGo] using h
  | cons e l ih =>
    intro k m pm h
    rcases hr : tb e none with ⟨ob, obe, oe, extra⟩
    by_cases h1 : (extra && gccP) = true
    · simp only [genRegGo, hr, h1]
      exact ih (k + 1) m pm h
    · cases ob with
      | none =>
        simp only [genRegGo, hr, h1, Bool.false_eq_true, if_false]
        exact ih (k + 1) m pm h
      | some b =>
        simp only [genRegGo, hr, h1, Bool.false_eq_true, if_false]
        exact ih (k + 1) _ _ ((get_add_block_spec m b).2.2 h)

theorem genRegGo_keys_lt (tb : TranslateBlockCallback) (gccP : Bool) :
    ∀ (l : List PaletteEntry) (k : Nat) (m : BlockManager) (pm : List (Nat × Nat)),
      (∀ p ∈ pm, p.1 < k) →
      ∀ p ∈ (genRegGo tb gccP m pm k l).2, p.1 < k + l.length := by
  intro l
  induction l with
  | nil =>
    intro k m pm hpm p hp
    simp only [genRegGo] at hp
    simpa using hpm p hp
  | cons e l ih =>
    intro k m pm hpm p hp
    rcases hr : tb e none with ⟨ob, obe, oe, extra⟩
    have hlen : k + (e :: l).length = (k + 1) + l.length := by simp; omega
    rw [hlen]
    by_cases h1 : (extra && gccP) = true
    · simp only [genRegGo, hr, h1] at hp
      exact ih (k + 1) m pm (fun q hq => by have := hpm q hq; omega) p hp
    · cases ob with
      | none =>
        simp only [genRegGo, hr, h1, Bool.false_eq_true, if_false] at hp
        exact ih (k + 1) m pm (fun q hq => by have := hpm q hq; omega) p hp
      | some b =>
        simp only [genRegGo, hr, h1, Bool.false_eq_true, if_false] at hp
        refine ih (k + 1) _ _ ?_ p hp
        intro q hq
        rw [assocInsert_of_not_mem _ (fun q' hq' hc => by have := hpm q' hq'; omega)] at hq
        rcases List.mem_append.mp hq with hq | hq
        · have := hpm q hq; omega
        · rcases List.mem_singleton.mp hq with rfl
          omega

theorem assocLookup_append {κ ν : Type} [DecidableEq κ] (l₁ l₂ : List (κ × ν)) (k : κ) :
    assocLookup (l₁ ++ l₂) k =
      match assocLookup l₁ k with
      | some v => some v
      | none => assocLookup l₂ k := by
  induction l₁ with
  | nil => rfl
  | cons p l ih =>
    by_cases hp : p.1 = k
    · simp [assocLookup_cons, hp]
    · simp only [List.cons_append, assocLookup_cons, if_neg hp]
      exact ih

theorem genRegGo_lookup_pres (tb : TranslateBlockCallback) (gccP : Bool) :
    ∀ (l : List PaletteEntry) (k : Nat) (m : BlockManager) (pm : List (Nat × Nat)),
      (∀ p ∈ pm, p.1 < k) →
      ∀ j, j < k →
      assocLookup (genRegGo tb gccP m pm k l).2 j = assocLookup pm j := by
  intro l
  induction l with
  | nil =>
    intro k m pm _ j _
    simp [genRegGo]
  | cons e l ih =>
    intro k m pm hpm j hj
    rcases hr : tb e none with ⟨ob, obe, oe, extra⟩
    by_cases h1 : (extra && gccP) = true
    · simp only [genRegGo, hr, h1]
      exact ih (k + 1) m pm (fun q hq => by have := hpm q hq; omega) j (by omega)
    · cases ob with
      | none =>
        simp only [genRegGo, hr, h1, Bool.false_eq_true, if_false]
        exact ih (k + 1) m pm (fun q hq => by have := hpm q hq; omega) j (by omega)
      | some b =>
        simp only [genRegGo, hr, h1, Bool.false_eq_true, if_false]
        rw [ih (k + 1) _ _ ?keys j (by omega)]
        case keys =>
          intro q hq
          rw [assocInsert_of_not_mem _ (fun q' hq' hc => by have := hpm q' hq'; omega)] at hq
          rcases List.mem_append.mp hq with hq | hq
          · have := hpm q hq; omega
          · rcases List.mem_singleton.mp hq with rfl
            omega
        rw [assocInsert_of_not_mem _ (fun q' hq' hc => by have := hpm q' hq'; omega)]
        rw [assocLookup_append]
        cases hl : assocLookup pm j with
        | some v => rfl
        | none =>
          apply assocLookup_eq_none
          intro p hp
          rcases List.mem_singleton.mp hp with rfl
          show ¬ k = j
          omega

theorem genRegGo_keys_nodup (tb : TranslateBlockCallback) (gccP : Bool) :
    ∀ (l : List PaletteEntry) (k : Nat) (m : BlockManager) (pm : List (Nat × Nat)),
      (∀ p ∈ pm, p.1 < k) → (pm.map (fun p => p.1)).Nodup →
      ((genRegGo tb gccP m pm k l).2.map (fun p => p.1)).Nodup := by
  intro l
  induction l with
  | nil =>
    intro k m pm _ hnd
    simpa [genRegGo] using hnd
  | cons e l ih =>
    intro k m pm hpm hnd
    rcases hr : tb e none with ⟨ob, obe, oe, extra⟩
    by_cases h1 : (extra && gccP) = true
    · simp only [genRegGo, hr, h1]
      exact ih (k + 1) m pm (fun q hq => by have := hpm q hq; omega) hnd
    · cases ob with
      | none =>
        simp only [genRegGo, hr, h1, Bool.false_eq_true, if_false]
        exact ih (k + 1) m pm (fun q hq => by have := hpm q hq; omega) hnd
      | some b =>
        simp only [genRegGo, hr, h1, Bool.false_eq_true, if_false]
        refine ih (k + 1) _ _ ?_ ?_
        · intro q hq
          rw [assocInsert_of_not_mem _ (fun q' hq' hc => by have := hpm q' hq'; omega)] at hq
          rcases List.mem_append.mp hq with hq | hq
          · have := hpm q hq; omega
          · rcases List.mem_singleton.mp hq with rfl
            omega
        · rw [assocInsert_of_not_mem _ (fun q' hq' hc => by have := hpm q' hq'; omega)]
          rw [List.map_append]
          rw [List.nodup_append]
          refine ⟨hnd, by simp, ?_⟩
          intro a ha hb
          simp only [List.map_cons, List.map_nil, List.mem_singleton] at hb
          rcases List.mem_map.mp ha with ⟨p, hp, hpa⟩
          have := hpm p hp
          omega

theorem genRegGo_lookup_main (tb : TranslateBlockCallback) (gccP : Bool) :
    ∀ (l : List PaletteEntry) (k : Nat) (m : BlockManager) (pm : List (Nat × Nat)),
      (∀ p ∈ pm, p.1 < k) →
      ∀ (d : Nat) (hd : d < l.length),
        ((((tb (l.get ⟨d, hd⟩) none).2.2.2 && gccP) = true ∨
            (tb (l.get ⟨d, hd⟩) none).1 = none) →
          assocLookup (genRegGo tb gccP m pm k l).2 (k + d) = none) ∧
        (∀ b, ¬(((tb (l.get ⟨d, hd⟩) none).2.2.2 && gccP) = true) →
          (tb (l.get ⟨d, hd⟩) none).1 = some b →
          ∃ n, assocLookup (genRegGo tb gccP m pm k l).2 (k + d) = some n ∧
            (genRegGo tb gccP m pm k l).1.blocks.get? n = some b) := by
  intro l
  induction l with
  | nil =>
    intro k m pm _ d hd
    exact absurd hd (by simp)
  | cons e l ih =>
    intro k m pm hpm d hd
    rcases hr : tb e none with ⟨ob, obe, oe, extra⟩
    cases d with
    | zero =>
      simp only [List.get] at *
      constructor
      · intro hcase
        rw [hr] at hcase
        simp only at hcase
        by_cases h1 : (extra && gccP) = true
        · simp only [genRegGo, hr, h1, if_true]
          rw [genRegGo_lookup_pres tb gccP l (k + 1) m pm
            (fun q hq => by have := hpm q hq; omega) (k + 0) (by omega)]
          exact assocLookup_eq_none (fun p hp hc => by have := hpm p hp; omega)
        · rcases hcase with hcase | hcase
          · exact absurd hcase h1
          · subst hcase
            simp only [genRegGo, hr, h1, Bool.false_eq_true, if_false]
            rw [genRegGo_lookup_pres tb gccP l (k + 1) m pm
              (fun q hq => by have := hpm q hq; omega) (k + 0) (by omega)]
            exact assocLookup_eq_none (fun p hp hc => by have := hpm p hp; omega)
      · intro b hnd hob
        rw [hr] at hnd hob
        simp only at hnd hob
        subst hob
        simp only [genRegGo, hr, if_neg hnd]
        have hkeys : ∀ q ∈ assocInsert pm k (m.get_add_block b).1, q.1 < k + 1 := by
          intro q hq
          rw [assocInsert_of_not_mem _ (fun q' hq' hc => by have := hpm q' hq'; omega)] at hq
          rcases List.mem_append.mp hq with hq | hq
          · have := hpm q hq; omega
          · rcases List.mem_singleton.mp hq with rfl
            omega
        refine ⟨(m.get_add_block b).1, ?_, ?_⟩
        · rw [genRegGo_lookup_pres tb gccP l (k + 1) _ _ hkeys (k + 0) (by omega)]
          rw [assocInsert_of_not_mem _ (fun q' hq' hc => by have := hpm q' hq'; omega)]
          rw [assocLookup_append]
          rw [assocLookup_eq_none (fun p hp hc => by have := hpm p hp; omega)]
          show assocLookup [(k, (m.get_add_block b).1)] (k + 0) = _
          rw [assocLookup_cons]
          rw [if_pos (by omega)]
        · rcases genRegGo_blocks_append tb gccP l (k + 1)
            (m.get_add_block b).2 (assocInsert pm k (m.get_add_block b).1) with ⟨t, ht⟩
          rw [ht]
          have hget := (get_add_block_spec m b).2.1
          have hlt : (m.get_add_block b).1 < (m.get_add_block b).2.blocks.length :=
            List.get?_eq_some.mp hget |>.1
          rw [List.get?_append hlt]
          exact hget
    | succ d' =>
      have hd' : d' < l.length := by
        simp only [List.length_cons] at hd
        omega
      have hshift : k + (d' + 1) = (k + 1) + d' := by omega
      by_cases h1 : (extra && gccP) = true
      · have hrec := ih (k + 1) m pm (fun q hq => by have := hpm q hq; omega) d' hd'
        simp only [genRegGo, hr, h1, if_true]
        simp only [List.get] at *
        rw [hshift]
        exact hrec
      · cases ob with
        | none =>
          have hrec := ih (k + 1) m pm (fun q hq => by have := hpm q hq; omega) d' hd'
          simp only [genRegGo, hr, h1, Bool.false_eq_true, if_false]
          simp only [List.get] at *
          rw [hshift]
          exact hrec
        | some b =>
          have hkeys : ∀ q ∈ assocInsert pm k (m.get_add_block b).1, q.1 < k + 1 := by
            intro q hq
            rw [assocInsert_of_not_mem _ (fun q' hq' hc => by have := hpm q' hq'; omega)] at hq
            rcases List.mem_append.mp hq with hq | hq
            · have := hpm q hq; omega
            · rcases List.mem_singleton.mp hq with rfl
              omega
          have hrec := ih (k + 1) (m.get_add_block b).2
            (assocInsert pm k (m.get_add_block b).1) hkeys d' hd'
          simp only [genRegGo, hr, h1, Bool.false_eq_true, if_false]
          simp only [List.get] at *
          rw [hshift]
          exact hrec

theorem phase2_empty_todo (es : Bool) (chunk : Chunk) (palette : List PaletteEntry)
    (gcc : GetChunkCallback) (tb : TranslateBlockCallback) (st : TState)
    (h : st.todo = []) : phase2 es chunk palette gcc tb st = st := by
  simp [phase2, h]

theorem phase2_eq_flat (es : Bool) (chunk : Chunk) (palette : List PaletteEntry)
    (gcc : GetChunkCallback) (tb : TranslateBlockCallback) (st : TState) :
    phase2 es chunk palette gcc tb st =
      (st.todo.flatMap (occurrences chunk.blocks)).foldl
        (phase2PosStep es chunk palette gcc tb) st := by
  show st.todo.foldl _ st = _
  suffices H : ∀ (todo : List Nat) (s : TState),
      todo.foldl
        (fun s' index =>
          (occurrences chunk.blocks index).foldl
            (phase2PosStep es chunk palette gcc tb) s') s =
      (todo.flatMap (occurrences chunk.blocks)).foldl
        (phase2PosStep es chunk palette gcc tb) s from H st.todo st
  intro todo
  induction todo with
  | nil => intro s; rfl
  | cons i todo ih =>
    intro s
    have h1 : (i :: todo).flatMap (occurrences chunk.blocks) =
        occurrences chunk.blocks i ++ todo.flatMap (occurrences chunk.blocks) := by
      simp [List.flatMap]
    rw [List.foldl_cons, ih, h1, List.foldl_append]

theorem entityPass_stub (te : TranslateEntityCallback) (chunk : Chunk) (st : TState)
    (hte : ∀ e, te e = (none, none, [])) : entityPass te chunk st = st := by
  show chunk.entities.foldl _ st = st
  suffices H : ∀ (l : List Entity) (s : TState), l.foldl (entityPassStep te) s = s from
    H chunk.entities st
  intro l
  induction l with
  | nil => intro s; rfl
  | cons e l ih =>
    intro s
    rw [List.foldl_cons]
    have hstep : entityPassStep te s e = s := by
      simp [entityPassStep, hte e]
    rw [hstep]
    exact ih s

theorem todoGo_gcc_false (tb : TranslateBlockCallback) :
    ∀ (l : List PaletteEntry) (k : Nat), todoGo tb false k l = [] := by
  intro l
  induction l with
  | nil => intro k; rfl
  | cons e l ih =>
    intro k
    simp [todoGo, ih]

theorem todoGo_plain (tb : TranslateBlockCallback) (gccP : Bool)
    (F : PaletteEntry → Block) :
    ∀ (l : List PaletteEntry) (k : Nat),
      (∀ e ∈ l, tb e none = (some (F e), none, [], false)) →
      todoGo tb gccP k l = [] := by
  intro l
  induction l with
  | nil => intro k _; rfl
  | cons e l ih =>
    intro k htb
    simp only [todoGo, htb e (by simp)]
    simp only [Bool.false_and, Bool.false_eq_true, if_false, List.nil_append]
    exact ih (k + 1) (fun e' he' => htb e' (by simp [he']))

theorem obeGo_plain (tb : TranslateBlockCallback) (gccP : Bool) (bs : Blocks)
    (cx cz : Int) (F : PaletteEntry → Block) :
    ∀ (l : List PaletteEntry) (k : Nat),
      (∀ e ∈ l, tb e none = (some (F e), none, [], false)) →
      obeGo tb gccP bs cx cz k l = [] := by
  intro l
  induction l with
  | nil => intro k _; rfl
  | cons e l ih =>
    intro k htb
    simp only [obeGo, htb e (by simp)]
    simp only [Bool.false_and, Bool.false_eq_true, if_false, List.nil_append]
    exact ih (k + 1) (fun e' he' => htb e' (by simp [he']))

theorem oeGo_plain (tb : TranslateBlockCallback) (es : Bool) (bs : Blocks)
    (cx cz : Int) (F : PaletteEntry → Block) :
    ∀ (l : List PaletteEntry) (k : Nat),
      (∀ e ∈ l, tb e none = (some (F e), none, [], false)) →
      oeGo tb es bs cx cz k l = [] := by
  intro l
  induction l with
  | nil => intro k _; rfl
  | cons e l ih =>
    intro k htb
    simp only [oeGo, htb e (by simp)]
    simp only [List.isEmpty_nil, Bool.not_true, Bool.false_and, Bool.false_eq_true,
      if_false, List.nil_append]
    exact ih (k + 1) (fun e' he' => htb e' (by simp [he']))

theorem phase1_spec (es : Bool) (chunk : Chunk) (gccP : Bool)
    (tb : TranslateBlockCallback) (palette : List PaletteEntry) :
    (phase1 es chunk gccP tb palette).todo = todoGo tb gccP 0 palette ∧
    (phase1 es chunk gccP tb palette).output_block_entities =
      obeGo tb gccP chunk.blocks chunk.cx chunk.cz 0 palette ∧
    (phase1 es chunk gccP tb palette).output_entities =
      oeGo tb es chunk.blocks chunk.cx chunk.cz 0 palette ∧
    (phase1 es chunk gccP tb palette).finished =
      (genRegGo tb gccP ⟨[]⟩ [] 0 palette).1 ∧
    (phase1 es chunk gccP tb palette).palette_mappings =
      (genRegGo tb gccP ⟨[]⟩ [] 0 palette).2 ∧
    (phase1 es chunk gccP tb palette).block_mappings = [] := by
  unfold phase1
  rw [phase1Go_eq es chunk gccP tb palette 0 initState]
  refine ⟨by simp [initState], by simp [initState], by simp [initState], rfl, rfl, rfl⟩

/-- C7: after Phase 1, the accumulated block-entity list is exactly: for each
non-deferred palette index whose context-free translation yields a block
together with a block-entity, one `new_at_location` copy per occurrence of
that index across all vertical sections, at that occurrence's absolute world
coordinates `(x + cx·16, y + cy·16, z + cz·16)` — and nothing else. -/
theorem claim_C7_block_entity_placement (es : Bool) (chunk : Chunk) (gccP : Bool)
    (tb : TranslateBlockCallback) (palette : List PaletteEntry) :
    (phase1 es chunk gccP tb palette).output_block_entities =
      obeGo tb gccP chunk.blocks chunk.cx chunk.cz 0 palette :=
  (phase1_spec es chunk gccP tb palette).2.1

/-- C5: deferral behaviour.  (1) Phase 1 defers exactly the indices whose
context-free translation requests context while a chunk-loader callback is
present; (2) without a callback nothing is deferred; (3) a deferred index
receives no palette-wide mapping, while a consumed index receives one exactly
when a block came out; (4) Phase 2 performs one position-step per occurrence
of each deferred index, in order; (5) each position-step re-invokes the
callback on the palette entry at that position with the resolver bound to
that position and records a per-position palette-manager index. -/
theorem claim_C5_deferral (es : Bool) (chunk : Chunk) (gcc : GetChunkCallback)
    (tb : TranslateBlockCallback) (palette : List PaletteEntry) (gccP : Bool) :
    (phase1 es chunk gccP tb palette).todo = todoGo tb gccP 0 palette ∧
    (gccP = false → (phase1 es chunk gccP tb palette).todo = []) ∧
    (∀ (d : Nat) (hd : d < palette.length),
      ((((tb (palette.get ⟨d, hd⟩) none).2.2.2 && gccP) = true →
        assocLookup (phase1 es chunk gccP tb palette).palette_mappings d = none) ∧
      (¬((((tb (palette.get ⟨d, hd⟩) none).2.2.2 && gccP) = true)) →
        ∀ b, (tb (palette.get ⟨d, hd⟩) none).1 = some b →
          ∃ n, assocLookup (phase1 es chunk gccP tb palette).palette_mappings d = some n))) ∧
    (∀ st : TState,
      phase2 es chunk palette gcc tb st =
        (st.todo.flatMap (occurrences chunk.blocks)).foldl
          (phase2PosStep es chunk palette gcc tb) st) ∧
    (∀ (st : TState) (cy x yl z : Int),
      (phase2PosStep es chunk palette gcc tb st (cy, (x, yl, z))).block_mappings =
        (match (tb (palette.getD (chunk.blocks.getBlock x (yl + cy * 16) z) default)
            (some (get_block_at gcc chunk palette x (yl + cy * 16) z))).1 with
         | some b =>
            assocInsert st.block_mappings (x, yl + cy * 16, z)
              (Sum.inl (st.finished.get_add_block b).1)
         | none => st.block_mappings)) := by
  obtain ⟨h1, _, _, _, h5, _⟩ := phase1_spec es chunk gccP tb palette
  refine ⟨h1, ?_, ?_, ?_, ?_⟩
  · intro hg
    subst hg
    rw [h1, todoGo_gcc_false]
  · intro d hd
    have hmain := genRegGo_lookup_main tb gccP palette 0 ⟨[]⟩ []
      (fun p hp => absurd hp (List.not_mem_nil p)) d (by simpa using hd)
    rw [h5]
    constructor
    · intro hdef
      have := hmain.1 (Or.inl hdef)
      simpa using this
    · intro hnd b hb
      rcases hmain.2 b hnd hb with ⟨n, hn, _⟩
      exact ⟨n, by simpa using hn⟩
  · intro st
    exact phase2_eq_flat es chunk palette gcc tb st
  · intro st cy x yl z
    simp only [phase2PosStep]
    generalize hro : tb (palette.getD (chunk.blocks.getBlock x (yl + cy * 16) z) default)
        (some (get_block_at gcc chunk palette x (yl + cy * 16) z)) = r
    rcases r with ⟨ob, obe, oe, extra⟩
    cases ob with
    | none =>
      by_cases h2 : (!oe.isEmpty && es) = true
      · simp [h2]
      · simp [h2]
    | some b =>
      cases obe with
      | none =>
        by_cases h2 : (!oe.isEmpty && es) = true
        · simp [h2]
        · simp [h2]
      | some be =>
        by_cases h2 : (!oe.isEmpty && es) = true
        · simp [h2]
        · simp [h2]

/-- Witness for C5: one palette entry that requests context with a callback
present is deferred and receives no palette-wide mapping. -/
theorem claim_C5_deferral_witness :
    (phase1 true exChunkC9 true exTbC9 [PaletteEntry.blk exA]).todo = [0] ∧
    assocLookup (phase1 true exChunkC9 true exTbC9
      [PaletteEntry.blk exA]).palette_mappings 0 = none := by
  obtain ⟨h1, _, h3, _, _⟩ :=
    claim_C5_deferral true exChunkC9 exGccC9 exTbC9 [PaletteEntry.blk exA] true
  constructor
  · rw [h1]
    decide
  · exact (h3 0 (by decide)).1 (by decide)

/-- C6: two structurally equal palette entries at distinct indices, consumed
context-free with the same output block, are remapped to one and the same
output index; the output palette holds exactly one copy of that block; and
`get_add_block` satisfies the §4.1 contract (existing first index on a hit,
append at the next sequential index on a miss). -/
theorem claim_C6_palette_dedup (es : Bool) (chunk : Chunk) (gccP : Bool)
    (tb : TranslateBlockCallback) (palette : List PaletteEntry)
    (i j : Nat) (e : PaletteEntry) (b : Block)
    (hij : i ≠ j)
    (hi : palette.get? i = some e) (hj : palette.get? j = some e)
    (hb : (tb e none).1 = some b)
    (hndef : ¬(((tb e none).2.2.2 && gccP) = true)) :
    (∃ n, assocLookup (phase1 es chunk gccP tb palette).palette_mappings i = some n ∧
      assocLookup (phase1 es chunk gccP tb palette).palette_mappings j = some n ∧
      (phase1 es chunk gccP tb palette).finished.blocks.get? n = some b ∧
      List.count b (phase1 es chunk gccP tb palette).finished.blocks = 1) ∧
    (∀ (m : BlockManager) (bb : Block),
      (bb ∈ m.blocks → ∃ nn, m.get_add_block bb = (nn, m) ∧ m.blocks.get? nn = some bb ∧
        ∀ k', k' < nn → m.blocks.get? k' ≠ some bb) ∧
      (bb ∉ m.blocks → m.get_add_block bb = (m.blocks.length, ⟨m.blocks ++ [bb]⟩))) := by
  obtain ⟨_, _, _, h4, h5, _⟩ := phase1_spec es chunk gccP tb palette
  have hi' : i < palette.length := List.get?_eq_some.mp hi |>.1
  have hj' : j < palette.length := List.get?_eq_some.mp hj |>.1
  have hgi : palette.get ⟨i, hi'⟩ = e := by
    rcases List.get?_eq_some.mp hi with ⟨h, hh⟩
    exact hh
  have hgj : palette.get ⟨j, hj'⟩ = e := by
    rcases List.get?_eq_some.mp hj with ⟨h, hh⟩
    exact hh
  have hmi := (genRegGo_lookup_main tb gccP palette 0 ⟨[]⟩ []
    (fun p hp => absurd hp (List.not_mem_nil p)) i hi').2 b
    (by rw [hgi]; exact hndef) (by rw [hgi]; exact hb)
  have hmj := (genRegGo_lookup_main tb gccP palette 0 ⟨[]⟩ []
    (fun p hp => absurd hp (List.not_mem_nil p)) j hj').2 b
    (by rw [hgj]; exact hndef) (by rw [hgj]; exact hb)
  rcases hmi with ⟨ni, hni, hgni⟩
  rcases hmj with ⟨nj, hnj, hgnj⟩
  have hnodup : (genRegGo tb gccP ⟨[]⟩ [] 0 palette).1.blocks.Nodup :=
    genRegGo_nodup tb gccP palette 0 ⟨[]⟩ [] (by simp)
  have hninj : ni = nj := by
    have hlt : ni < (genRegGo tb gccP ⟨[]⟩ [] 0 palette).1.blocks.length :=
      List.get?_eq_some.mp hgni |>.1
    exact List.get?_inj hlt hnodup (hgni.trans hgnj.symm)
  refine ⟨⟨ni, ?_, ?_, ?_, ?_⟩, ?_⟩
  · rw [h5]
    simpa using hni
  · rw [h5, hninj]
    simpa using hnj
  · rw [h4]
    exact hgni
  · rw [h4]
    exact List.count_eq_one_of_mem hnodup (List.get?_mem hgni)
  · intro m bb
    constructor
    · intro hmem
      exact get_add_block_of_mem hmem
    · intro hmem
      exact get_add_block_of_not_mem hmem

/-- Witness for C6: the palette `[A, A]` with an unwrap callback maps indices
0 and 1 to one shared output index whose block appears exactly once. -/
theorem claim_C6_palette_dedup_witness :
    ∃ n, assocLookup (phase1 false exChunkC4 false exTbUnwrap
        exPalDup).palette_mappings 0 = some n ∧
      assocLookup (phase1 false exChunkC4 false exTbUnwrap
        exPalDup).palette_mappings 1 = some n ∧
      (phase1 false exChunkC4 false exTbUnwrap exPalDup).finished.blocks.get? n =
        some exA ∧
      List.count exA (phase1 false exChunkC4 false exTbUnwrap
        exPalDup).finished.blocks = 1 :=
  (claim_C6_palette_dedup false exChunkC4 false exTbUnwrap exPalDup 0 1
    (PaletteEntry.blk exA) exA (by decide) (by decide) (by decide) (by decide)
    (by decide)).1

theorem mapLayers_inv {f g : BlockBase → BlockBase} (hinv : ∀ b, g (f b) = b)
    (B : Block) : mapLayers g (mapLayers f B) = B := by
  unfold mapLayers
  have h1 : (B.extra_blocks.map f).map g = B.extra_blocks := by
    rw [List.map_map]
    have h2 : B.extra_blocks.map (g ∘ f) = B.extra_blocks.map id :=
      List.map_congr_left (fun b _ => hinv b)
    rw [h2, List.map_id]
  rw [hinv B.base_block, h1]

theorem translateLayersGo_plain (h : BlockBase → BlockBase) (cb : Option GetBlockCallback) :
    ∀ (l : List BlockBase) (d : Nat) (FB : Block),
      translateLayersGo (fun b _ => (some (Sum.inl ⟨h b, []⟩), none, false)) cb d l
        (some FB, none, [], false) =
      (some ⟨FB.base_block, FB.extra_blocks ++ l.map h⟩, none, [], false) := by
  intro l
  induction l with
  | nil =>
    intro d FB
    simp [translateLayersGo]
  | cons b l ih =>
    intro d FB
    have hstep : translateLayersGo
        (fun b _ => (some (Sum.inl ⟨h b, []⟩), none, false)) cb d (b :: l)
        (some FB, none, [], false) =
        translateLayersGo (fun b _ => (some (Sum.inl ⟨h b, []⟩), none, false)) cb
          (d + 1) l (some (FB.add ⟨h b, []⟩), none, [], false) := by
      simp [translateLayersGo, ite_self]
    rw [hstep, ih (d + 1) (FB.add ⟨h b, []⟩)]
    simp [Block.add]

theorem translateBlockLayers_plain (h : BlockBase → BlockBase)
    (cb : Option GetBlockCallback) (B : Block) :
    translateBlockLayers (fun b _ => (some (Sum.inl ⟨h b, []⟩), none, false))
      (PaletteEntry.blk B) cb =
    (some (mapLayers h B), none, [], false) := by
  show translateLayersGo _ cb 0 (B.base_block :: B.extra_blocks) (none, none, [], false) = _
  have h0 : translateLayersGo
      (fun b _ => (some (Sum.inl ⟨h b, []⟩), none, false)) cb 0
      (B.base_block :: B.extra_blocks) (none, none, [], false) =
      translateLayersGo (fun b _ => (some (Sum.inl ⟨h b, []⟩), none, false)) cb 1
        B.extra_blocks (some ⟨h B.base_block, []⟩, none, [], false) := by
    simp [translateLayersGo]
  rw [h0, translateLayersGo_plain]
  simp [mapLayers]

theorem translate_plain_spec (es : Bool) (chunk : Chunk) (palette : List PaletteEntry)
    (gcc : Option GetChunkCallback) (tb : TranslateBlockCallback)
    (te : TranslateEntityCallback) (F : PaletteEntry → Block)
    (htb : ∀ e ∈ palette, tb e none = (some (F e), none, [], false))
    (hte : ∀ e, te e = (none, none, [])) :
    ∃ (ρ : Nat → Nat),
      Translator._translate es chunk palette gcc tb te true =
        some ({ chunk with
                  blocks := ⟨chunk.blocks.subs.map (fun s =>
                    (s.1, s.2.map (fun c => (c.1, ρ c.2))))⟩,
                  block_entities := [],
                  entities := [] },
              (genRegGo tb gcc.isSome ⟨[]⟩ [] 0 palette).1.blocks.map PaletteEntry.blk) ∧
      ∀ v (hv : v < palette.length),
        (genRegGo tb gcc.isSome ⟨[]⟩ [] 0 palette).1.blocks.get? (ρ v) =
          some (F (palette.get ⟨v, hv⟩)) ∧
        ρ v < (genRegGo tb gcc.isSome ⟨[]⟩ [] 0 palette).1.blocks.length := by
  obtain ⟨h1, h2, h3, h4, h5, h6⟩ := phase1_spec es chunk gcc.isSome tb palette
  have htodo : (phase1 es chunk gcc.isSome tb palette).todo = [] := by
    rw [h1, todoGo_plain tb gcc.isSome F palette 0 htb]
  have hobe : (phase1 es chunk gcc.isSome tb palette).output_block_entities = [] := by
    rw [h2, obeGo_plain tb gcc.isSome chunk.blocks chunk.cx chunk.cz F palette 0 htb]
  have hoe : (phase1 es chunk gcc.isSome tb palette).output_entities = [] := by
    rw [h3, oeGo_plain tb es chunk.blocks chunk.cx chunk.cz F palette 0 htb]
  refine ⟨fun v => commitVal (genRegGo tb gcc.isSome ⟨[]⟩ [] 0 palette).2 v, ?_, ?_⟩
  · show (if (!true) = true then _ else _) = _
    simp only [Bool.not_true, Bool.false_eq_true, if_false]
    rw [phase2_empty_todo es chunk palette _ tb _ htodo]
    have hep : (if es then
        entityPass te chunk (phase1 es chunk gcc.isSome tb palette)
        else (phase1 es chunk gcc.isSome tb palette)) =
        phase1 es chunk gcc.isSome tb palette := by
      cases es
      · rfl
      · exact if_pos rfl |>.trans (entityPass_stub te chunk _ hte)
    rw [hep, h6, h5, h4]
    show some _ = some _
    rw [hobe, hoe]
    have hcommit : commitBlocks (genRegGo tb gcc.isSome ⟨[]⟩ [] 0 palette).2 chunk.blocks =
        ⟨chunk.blocks.subs.map (fun s =>
          (s.1, s.2.map (fun c =>
            (c.1, commitVal (genRegGo tb gcc.isSome ⟨[]⟩ [] 0 palette).2 c.2))))⟩ := by
      show Blocks.mk _ = _
      congr 1
      apply List.map_congr_left
      intro s _
      rw [commitSub_eq_map]
    rw [hcommit]
  · intro v hv
    have hmem : palette.get ⟨v, hv⟩ ∈ palette := List.get_mem palette v hv
    have he := htb _ hmem
    have hnd : ¬(((tb (palette.get ⟨v, hv⟩) none).2.2.2 && gcc.isSome) = true) := by
      rw [he]
      simp
    have hmain := (genRegGo_lookup_main tb gcc.isSome palette 0 ⟨[]⟩ []
      (fun p hp => absurd hp (List.not_mem_nil p)) v hv).2
      (F (palette.get ⟨v, hv⟩)) hnd (by rw [he])
    rcases hmain with ⟨n, hn, hg⟩
    have hkeys := genRegGo_keys_nodup tb gcc.isSome palette 0 ⟨[]⟩ []
      (fun p hp => absurd hp (List.not_mem_nil p)) (by simp)
    have hcv : commitVal (genRegGo tb gcc.isSome ⟨[]⟩ [] 0 palette).2 v = n :=
      commitVal_lookup hkeys (by simpa using hn)
    simp only [hcv]
    exact ⟨hg, (List.get?_eq_some.mp hg).1⟩

theorem to_universal_as_translate (es : Bool) (ver : Version) (chunk : Chunk)
    (palette : List PaletteEntry) (gcc : Option GetChunkCallback) (ft : Bool) :
    ∃ ca : Chunk,
      Translator.to_universal es ver chunk palette gcc ft =
        Translator._translate es ca palette gcc (toUniversalTranslateBlock ver)
          (toUniversalTranslateEntity ver) ft ∧
      ca.blocks = chunk.blocks ∧ ca.cx = chunk.cx ∧ ca.cz = chunk.cz ∧
      ca.entities = chunk.entities := by
  cases hbem : ver.block_entity_map with
  | none =>
    refine ⟨{ chunk with
      biomes := Translator._biomes_to_universal ver chunk.biomes }, ?_, rfl, rfl, rfl, rfl⟩
    simp [Translator.to_universal, hbem]
  | some bemap =>
    refine ⟨{ chunk with
      biomes := Translator._biomes_to_universal ver chunk.biomes,
      block_entities := chunk.block_entities.map (fun block_entity =>
        if block_entity.ns.isNone &&
            (assocLookup bemap block_entity.base_name).isSome then
          block_entity.set_namespaced_name
            ((assocLookup bemap block_entity.base_name).getD "")
        else block_entity) }, ?_, rfl, rfl, rfl, rfl⟩
    simp [Translator.to_universal, hbem]

theorem from_universal_step (es : Bool) (ver : Version) (chunk : Chunk)
    (palette : List PaletteEntry) (gcc : Option GetChunkCallback)
    (cc : Chunk) (pp : List PaletteEntry)
    (h : Translator._translate es chunk palette gcc
      (fromUniversalTranslateBlock ver) (fromUniversalTranslateEntity ver) true =
        some (cc, pp)) :
    ∃ cc' : Chunk,
      Translator.from_universal es ver chunk palette gcc true = some (cc', pp) ∧
      cc'.blocks = cc.blocks := by
  cases hbem : ver.block_entity_map with
  | none =>
    refine ⟨{ cc with
      biomes := Translator._biomes_from_universal ver cc.biomes }, ?_, rfl⟩
    simp [Translator.from_universal, h, Translator._pack_palette, hbem]
  | some bemap =>
    refine ⟨{ cc with
      biomes := Translator._biomes_from_universal ver cc.biomes,
      block_entities := cc.block_entities.map (fun block_entity =>
        match assocLookup ver.block_entity_map_inverse block_entity.namespaced_name with
        | some s => block_entity.set_namespaced_name s
        | none => block_entity) }, ?_, rfl⟩
    simp [Translator.from_universal, h, Translator._pack_palette, hbem]

/-- C1: for a chunk whose palette holds only plain blocks and a version whose
block rules are pure, mutually inverse per-layer 1:1 mappings with
`needs_context = false`, running `to_universal` then `from_universal` (both
full translations) succeeds and reproduces the original block array up to a
single renumbering `reindex` of palette indices: the array topology is
unchanged and, for every palette index `v`, the block value resolved through
the final palette at `reindex v` is structurally equal to the original block
value at `v`. -/
theorem claim_C1_roundtrip (f g : BlockBase → BlockBase) (bt bf : Int → Int)
    (bem : Option (List (String × String))) (bemi : List (String × String))
    (es es' : Bool) (gcc gcc' : Option GetChunkCallback)
    (chunk : Chunk) (palette : List PaletteEntry)
    (hinv : ∀ b, g (f b) = b)
    (hblk : ∀ e ∈ palette, ∃ B, e = PaletteEntry.blk B) :
    ∃ (c₁ : Chunk) (p₁ : List PaletteEntry) (c₂ : Chunk) (p₂ : List PaletteEntry)
      (reindex : Nat → Nat),
      Translator.to_universal es (pureVersion f g bt bf bem bemi) chunk palette gcc true =
        some (c₁, p₁) ∧
      Translator.from_universal es' (pureVersion f g bt bf bem bemi) c₁ p₁ gcc' true =
        some (c₂, p₂) ∧
      c₂.blocks.subs = chunk.blocks.subs.map (fun s =>
        (s.1, s.2.map (fun c => (c.1, reindex c.2)))) ∧
      (∀ v, v < palette.length →
        p₂.getD (reindex v) default = palette.getD v default) := by
  have htbU : ∀ e ∈ palette,
      toUniversalTranslateBlock (pureVersion f g bt bf bem bemi) e none =
      (some (mapLayers f (unwrapEntry e)), none, [], false) := by
    intro e he
    rcases hblk e he with ⟨B, rfl⟩
    show translateBlockLayers (fun b _ => (some (Sum.inl ⟨f b, []⟩), none, false))
      (PaletteEntry.blk B) none = _
    rw [translateBlockLayers_plain]
    rfl
  have hteU : ∀ e, toUniversalTranslateEntity (pureVersion f g bt bf bem bemi) e =
      (none, none, []) := fun _ => rfl
  obtain ⟨ca, hca, hcab, hcax, hcaz, hcae⟩ :=
    to_universal_as_translate es (pureVersion f g bt bf bem bemi) chunk palette gcc true
  obtain ⟨r1, hT1, hIdx1⟩ := translate_plain_spec es ca palette gcc
    (toUniversalTranslateBlock (pureVersion f g bt bf bem bemi))
    (toUniversalTranslateEntity (pureVersion f g bt bf bem bemi))
    (fun e => mapLayers f (unwrapEntry e)) htbU hteU
  have hto : Translator.to_universal es (pureVersion f g bt bf bem bemi)
      chunk palette gcc true =
      some ({ ca with
        blocks := ⟨ca.blocks.subs.map (fun s =>
          (s.1, s.2.map (fun c => (c.1, r1 c.2))))⟩,
        block_entities := [], entities := [] },
        (genRegGo (toUniversalTranslateBlock (pureVersion f g bt bf bem bemi))
          gcc.isSome ⟨[]⟩ [] 0 palette).1.blocks.map PaletteEntry.blk) := by
    rw [hca, hT1]
  set c₁ : Chunk := { ca with
    blocks := ⟨ca.blocks.subs.map (fun s =>
      (s.1, s.2.map (fun c => (c.1, r1 c.2))))⟩,
    block_entities := [], entities := [] } with hc₁
  set p₁ : List PaletteEntry :=
    (genRegGo (toUniversalTranslateBlock (pureVersion f g bt bf bem bemi))
      gcc.isSome ⟨[]⟩ [] 0 palette).1.blocks.map PaletteEntry.blk with hp₁
  have hblk1 : ∀ e ∈ p₁, ∃ B, e = PaletteEntry.blk B := by
    intro e he
    rw [hp₁] at he
    rcases List.mem_map.mp he with ⟨B, _, rfl⟩
    exact ⟨B, rfl⟩
  have htbF : ∀ e ∈ p₁,
      fromUniversalTranslateBlock (pureVersion f g bt bf bem bemi) e none =
      (some (mapLayers g (unwrapEntry e)), none, [], false) := by
    intro e he
    rcases hblk1 e he with ⟨B, rfl⟩
    show translateBlockLayers (fun b _ => (some (Sum.inl ⟨g b, []⟩), none, false))
      (PaletteEntry.blk B) none = _
    rw [translateBlockLayers_plain]
    rfl
  have hteF : ∀ e, fromUniversalTranslateEntity (pureVersion f g bt bf bem bemi) e =
      (none, none, []) := fun _ => rfl
  obtain ⟨r2, hT2, hIdx2⟩ := translate_plain_spec es' c₁ p₁ gcc'
    (fromUniversalTranslateBlock (pureVersion f g bt bf bem bemi))
    (fromUniversalTranslateEntity (pureVersion f g bt bf bem bemi))
    (fun e => mapLayers g (unwrapEntry e)) htbF hteF
  obtain ⟨c₂, hfrom, hc₂b⟩ := from_universal_step es' (pureVersion f g bt bf bem bemi)
    c₁ p₁ gcc' _ _ hT2
  refine ⟨c₁, p₁, c₂,
    (genRegGo (fromUniversalTranslateBlock (pureVersion f g bt bf bem bemi))
      gcc'.isSome ⟨[]⟩ [] 0 p₁).1.blocks.map PaletteEntry.blk,
    fun v => r2 (r1 v), hto, hfrom, ?_, ?_⟩
  · rw [hc₂b]
    show (⟨c₁.blocks.subs.map (fun s => (s.1, s.2.map (fun c => (c.1, r2 c.2))))⟩ :
      Blocks).subs = _
    rw [hc₁]
    show (ca.blocks.subs.map _).map _ = _
    rw [hcab, List.map_map]
    apply List.map_congr_left
    intro s _
    show (s.1, (s.2.map _).map _) = _
    rw [List.map_map]
    rfl
  · intro v hv
    have h1 := hIdx1 v hv
    have hr1lt : r1 v < p₁.length := by
      rw [hp₁, List.length_map]
      exact h1.2
    have h2 := hIdx2 (r1 v) hr1lt
    have hp₁get : p₁.get ⟨r1 v, hr1lt⟩ =
        PaletteEntry.blk (mapLayers f (unwrapEntry (palette.get ⟨v, hv⟩))) := by
      have hone : p₁.get? (r1 v) =
          some (PaletteEntry.blk (mapLayers f (unwrapEntry (palette.get ⟨v, hv⟩)))) := by
        rw [hp₁, List.get?_map, h1.1]
        rfl
      rw [List.get?_eq_get hr1lt] at hone
      exact Option.some.inj hone
    have hfinal := h2.1
    simp only [hp₁get] at hfinal
    have hfinal2 : (genRegGo (fromUniversalTranslateBlock (pureVersion f g bt bf bem bemi))
        gcc'.isSome ⟨[]⟩ [] 0 p₁).1.blocks.get? (r2 (r1 v)) =
        some (unwrapEntry (palette.get ⟨v, hv⟩)) := by
      rw [hfinal]
      show some (mapLayers g (mapLayers f _)) = _
      rw [mapLayers_inv hinv]
    have hgoal1 : ((genRegGo (fromUniversalTranslateBlock (pureVersion f g bt bf bem bemi))
        gcc'.isSome ⟨[]⟩ [] 0 p₁).1.blocks.map PaletteEntry.blk).getD (r2 (r1 v)) default =
        PaletteEntry.blk (unwrapEntry (palette.get ⟨v, hv⟩)) := by
      rw [List.getD_eq_getD_get?, List.get?_map, hfinal2]
      rfl
    have hgoal2 : palette.getD v default = palette.get ⟨v, hv⟩ := by
      rw [List.getD_eq_getD_get?, List.get?_eq_get hv]
      rfl
    rw [hgoal1, hgoal2]
    rcases hblk _ (List.get_mem palette v hv) with ⟨B, hB⟩
    rw [hB]
    rfl

/-- Witness for C1 at a concrete chunk at (2, -1) with palette `[A, B]` and
identity (hence mutually inverse) per-layer rules. -/
theorem claim_C1_roundtrip_witness :
    (∀ b, exIdRule (exIdRule b) = b) ∧
    (∀ e ∈ exPalC1, ∃ B, e = PaletteEntry.blk B) ∧
    (∃ (c₁ : Chunk) (p₁ : List PaletteEntry) (c₂ : Chunk) (p₂ : List PaletteEntry)
      (reindex : Nat → Nat),
      Translator.to_universal false exVer exChunkC1 exPalC1 none true = some (c₁, p₁) ∧
      Translator.from_universal false exVer c₁ p₁ none true = some (c₂, p₂) ∧
      c₂.blocks.subs = exChunkC1.blocks.subs.map (fun s =>
        (s.1, s.2.map (fun c => (c.1, reindex c.2)))) ∧
      (∀ v, v < exPalC1.length →
        p₂.getD (reindex v) default = exPalC1.getD v default)) := by
  have hblk : ∀ e ∈ exPalC1, ∃ B, e = PaletteEntry.blk B := by
    intro e he
    rcases List.mem_cons.mp he with rfl | he
    · exact ⟨exA, rfl⟩
    · rcases List.mem_singleton.mp he with rfl
      exact ⟨exB, rfl⟩
  exact ⟨fun b => rfl, hblk,
    claim_C1_roundtrip exIdRule exIdRule (fun v => v + 1) (fun v => v - 1) none []
      false false none none exChunkC1 exPalC1 (fun b => rfl) hblk⟩
